import Mathlib

/-!
Verification development for the eodyne-data-browser taxonomy engine.

This file contains a shallow embedding, in Lean 4, of the taxonomy
construction pipeline (`scripts/build_taxonomy.py`) and of the fuzzy
search engine (`scripts/taxonomy_browser.py`), together with theorems
settling the specification claims about them.

Modelling conventions:
* Python strings are Lean `String`s; where character-level induction is
  needed (text normalisation, sequence matching) we work on `String.data`
  (`List Char`).
* Python dicts are association lists `List (String × α)` built with `dset`
  (update in place if the key exists, else append), which reproduces the
  insertion-order semantics of Python dicts.  `dget` is `dict.get`.
* Python `sorted` on strings is insertion sort by the code-point
  lexicographic order `strLeP` (Python compares strings by code point).
  Python's sort is stable; none of the proved statements depend on the
  order of ties, so `List.insertionSort` is an adequate model.
* Python floats are modelled by `ℚ`.  Every score produced by the engine
  is a rational with a tiny denominator (bounded by text lengths), and the
  thresholds are 0.4 and 0.35, so exact rational comparison agrees with
  the float comparisons performed by the code on all realistic inputs.
-/

namespace DataBrowser

/-! ### Python dict as an association list -/

def dget {α : Type} (d : List (String × α)) (k : String) : Option α :=
  match d with
  | [] => none
  | (k', v) :: rest => if k' = k then some v else dget rest k

def dset {α : Type} (d : List (String × α)) (k : String) (v : α) :
    List (String × α) :=
  match d with
  | [] => [(k, v)]
  | (k', v') :: rest => if k' = k then (k', v) :: rest else (k', v') :: dset rest k v

def dkeys {α : Type} (d : List (String × α)) : List String :=
  d.map (fun p => p.1)

theorem dget_dset {α : Type} (d : List (String × α)) (k : String) (v : α)
    (k' : String) :
    dget (dset d k v) k' = if k = k' then some v else dget d k' := by
  induction d with
  | nil =>
    by_cases h : k = k' <;> simp [dset, dget, h]
  | cons p rest ih =>
    obtain ⟨k₀, v₀⟩ := p
    by_cases h₀ : k₀ = k
    · subst h₀
      by_cases h : k₀ = k' <;> simp [dset, dget, h]
    · by_cases h : k₀ = k'
      · subst h
        have : ¬ k = k₀ := fun hc => h₀ hc.symm
        simp [dset, dget, h₀, this]
      · simp [dset, dget, h₀, h, ih]

theorem dget_dset_self {α : Type} (d : List (String × α)) (k : String) (v : α) :
    dget (dset d k v) k = some v := by
  simp [dget_dset]

theorem dget_dset_ne {α : Type} (d : List (String × α)) (k : String) (v : α)
    {k' : String} (h : k ≠ k') :
    dget (dset d k v) k' = dget d k' := by
  simp [dget_dset, h]

theorem mem_dkeys_iff_isSome {α : Type} (d : List (String × α)) (k : String) :
    k ∈ dkeys d ↔ (dget d k).isSome := by
  induction d with
  | nil => simp [dkeys, dget]
  | cons p rest ih =>
    obtain ⟨k₀, v₀⟩ := p
    by_cases h : k₀ = k
    · subst h
      simp [dkeys, dget]
    · have step : dkeys ((k₀, v₀) :: rest) = k₀ :: dkeys rest := rfl
      rw [step, dget, if_neg h, List.mem_cons]
      constructor
      · rintro (h₂ | h₂)
        · exact absurd h₂.symm h
        · exact ih.mp h₂
      · intro h₂
        exact Or.inr (ih.mpr h₂)

theorem dkeys_dset {α : Type} (d : List (String × α)) (k : String) (v : α) :
    dkeys (dset d k v) = if (dget d k).isSome then dkeys d else dkeys d ++ [k] := by
  induction d with
  | nil => simp [dset, dkeys, dget]
  | cons p rest ih =>
    obtain ⟨k₀, v₀⟩ := p
    by_cases h : k₀ = k
    · subst h
      simp [dset, dkeys, dget]
    · have step : dkeys ((k₀, v₀) :: dset rest k v) = k₀ :: dkeys (dset rest k v) := rfl
      rw [dset, if_neg h, dget, if_neg h, step, ih]
      by_cases hs : (dget rest k).isSome <;> simp [hs, dkeys]

theorem nodup_dkeys_dset {α : Type} (d : List (String × α)) (k : String) (v : α)
    (h : (dkeys d).Nodup) : (dkeys (dset d k v)).Nodup := by
  rw [dkeys_dset]
  by_cases hs : (dget d k).isSome
  · simpa [hs]
  · have hk : k ∉ dkeys d := by
      rw [mem_dkeys_iff_isSome]
      simpa using hs
    simp only [hs, if_false]
    refine List.Nodup.append h (List.nodup_singleton k) ?_
    intro a ha hb
    rw [List.mem_singleton] at hb
    subst hb
    exact hk ha

theorem dget_mem {α : Type} {d : List (String × α)} {k : String} {v : α}
    (h : dget d k = some v) : (k, v) ∈ d := by
  induction d with
  | nil => simp [dget] at h
  | cons p rest ih =>
    obtain ⟨k₀, v₀⟩ := p
    by_cases hk : k₀ = k
    · subst hk
      simp [dget] at h
      simp [h]
    · simp [dget, hk] at h
      exact List.mem_cons_of_mem _ (ih h)

theorem dget_mapVal {α β : Type} (d : List (String × α)) (f : α → β) (k : String) :
    dget (d.map (fun p => (p.1, f p.2))) k = (dget d k).map f := by
  induction d with
  | nil => simp [dget]
  | cons p rest ih =>
    obtain ⟨k₀, v₀⟩ := p
    by_cases h : k₀ = k <;> simp [dget, h, ih]

/-! ### Code-point lexicographic order on strings (Python string comparison) -/

def lexLt : List Char → List Char → Bool
  | [], [] => false
  | [], _ :: _ => true
  | _ :: _, [] => false
  | x :: xs, y :: ys => if x < y then true else if y < x then false else lexLt xs ys

theorem lexLt_irrefl (a : List Char) : lexLt a a = false := by
  induction a with
  | nil => rfl
  | cons x xs ih => simp [lexLt, lt_irrefl, ih]

theorem lexLt_trans : ∀ {a b c : List Char},
    lexLt a b = true → lexLt b c = true → lexLt a c = true
  | [], [], _, h, _ => by simp [lexLt] at h
  | [], _ :: _, [], _, h => by simp [lexLt] at h
  | [], _ :: _, _ :: _, _, _ => by simp [lexLt]
  | _ :: _, [], _, h, _ => by simp [lexLt] at h
  | _ :: _, _ :: _, [], _, h => by simp [lexLt] at h
  | x :: xs, y :: ys, z :: zs, h₁, h₂ => by
    simp only [lexLt] at h₁ h₂ ⊢
    rcases lt_trichotomy x y with hxy | hxy | hxy
    · rcases lt_trichotomy y z with hyz | hyz | hyz
      · simp [lt_trans hxy hyz]
      · subst hyz
        simp [hxy]
      · simp [asymm hyz, hyz] at h₂
    · subst hxy
      rcases lt_trichotomy x z with hxz | hxz | hxz
      · simp [hxz]
      · subst hxz
        simp [lt_irrefl] at h₁ h₂ ⊢
        exact lexLt_trans h₁ h₂
      · simp [asymm hxz, hxz] at h₂
    · simp [asymm hxy, hxy] at h₁

theorem lexLt_conn : ∀ {a b : List Char},
    lexLt a b = false → lexLt b a = false → a = b
  | [], [], _, _ => rfl
  | [], _ :: _, h, _ => by simp [lexLt] at h
  | _ :: _, [], _, h => by simp [lexLt] at h
  | x :: xs, y :: ys, h₁, h₂ => by
    simp only [lexLt] at h₁ h₂
    by_cases hxy : x < y
    · simp [hxy] at h₁
    · by_cases hyx : y < x
      · simp [hxy, hyx] at h₂
      · have hxy' : x = y := le_antisymm (not_lt.mp hyx) (not_lt.mp hxy)
        subst hxy'
        simp [hxy] at h₁ h₂
        exact congrArg (x :: ·) (lexLt_conn h₁ h₂)

/-- Python `a <= b` on strings: not `b < a` in code-point order. -/
def strLeP (a b : String) : Prop := lexLt b.data a.data = false

instance : DecidableRel strLeP := fun a b => by
  unfold strLeP
  infer_instance

instance : IsTotal String strLeP := by
  constructor
  intro a b
  by_cases h : lexLt b.data a.data = false
  · exact Or.inl h
  · right
    have h' : lexLt b.data a.data = true := by
      cases hb : lexLt b.data a.data
      · exact absurd hb h
      · rfl
    unfold strLeP
    cases hc : lexLt a.data b.data
    · rfl
    · exact absurd (lexLt_trans h' hc) (by simp [lexLt_irrefl])

instance : IsTrans String strLeP := by
  constructor
  intro a b c hab hbc
  unfold strLeP at hab hbc ⊢
  cases hca : lexLt c.data a.data
  · rfl
  · exfalso
    cases hbc' : lexLt b.data c.data
    · have hbceq : b.data = c.data := lexLt_conn hbc' hbc
      rw [← hbceq] at hca
      exact absurd hab (by simp [hca])
    · have hba : lexLt b.data a.data = true := lexLt_trans hbc' hca
      exact absurd hab (by simp [hba])

/-- Python `sorted` on a list of strings. -/
def sortStr (l : List String) : List String := l.insertionSort strLeP

theorem mem_sortStr {a : String} {l : List String} : a ∈ sortStr l ↔ a ∈ l :=
  (List.perm_insertionSort strLeP l).mem_iff

theorem nodup_sortStr {l : List String} (h : l.Nodup) : (sortStr l).Nodup :=
  ((List.perm_insertionSort strLeP l).nodup_iff).mpr h

theorem sorted_sortStr (l : List String) : List.Sorted strLeP (sortStr l) :=
  List.sorted_insertionSort strLeP l

/-- Python `sorted(set(xs))` on strings. -/
def sortedSet (l : List String) : List String := sortStr l.dedup

theorem mem_sortedSet {a : String} {l : List String} : a ∈ sortedSet l ↔ a ∈ l := by
  rw [sortedSet, mem_sortStr, List.mem_dedup]

theorem nodup_sortedSet (l : List String) : (sortedSet l).Nodup :=
  nodup_sortStr (List.nodup_dedup l)

theorem sorted_sortedSet (l : List String) : List.Sorted strLeP (sortedSet l) :=
  sorted_sortStr _

/-! ### Fixed configuration tables of `scripts/build_taxonomy.py` -/

def INPUT_FILE : String := "context.json"

def SUFFIXES : List String := ["app", "clinic", "home", "icu", "plus", "web"]

def DOMAIN_GROUPS : List (String × List String) :=
  [("RGS Core",
    ["Patient", "Clinician", "Hospital", "Prescriptions", "sessions",
     "Recordings", "patient_aisn_data"]),
   ("Clinical Trial", ["AISN"]),
   ("Engagement and Coaching", ["AI Coach", "EmotionalSlider"]),
   ("Difficulty Adaptation and Performance",
    ["Difficulty Adaptation and Performance"]),
   ("Measurements and Features", ["Kinematic Features"]),
   ("Predictive Analytics", ["RecSys", "SaddlePoint"]),
   ("RGS Housekeeping", ["RGS Housekeeping"]),
   ("Miscellaneous", ["Miscellaneous"])]

def GROUP_DESCRIPTIONS : List (String × String) :=
  [("AI Coach", "Coaching messages, schedules, and commitment tracking."),
   ("AISN", "AISN clinical trial context (no direct tables)."),
   ("Clinician", "Clinician profiles, activities, and patient/protocol links."),
   ("Difficulty Adaptation and Performance",
    "Adaptive difficulty settings, parameters, and performance estimators."),
   ("EmotionalSlider", "Emotional questionnaires and evaluations."),
   ("Hospital", "Hospital organizations, subscriptions, software/protocol links."),
   ("Kinematic Features",
    "Kinematic features captured from sessions (e.g., displacement, volume, surfaces)."),
   ("Patient", "Patient profiles, devices, diagnoses, language, and subscriptions."),
   ("Prescriptions", "Prescriptions across application contexts."),
   ("RGS Housekeeping", "Reference entities: protocols, platforms, software, versions."),
   ("RecSys", "Recommendation system data, metrics, notes, and staging."),
   ("Recordings", "Recordings across application contexts."),
   ("SaddlePoint", "Predictive analytics (SPS) sources, diagnosis, prognosis."),
   ("patient_aisn_data", "AISN-specific patient data."),
   ("sessions", "Sessions across application contexts."),
   ("Miscellaneous", "Ungrouped or uncategorized tables.")]

def UNCATEGORIZED_NOTES : List (String × String) :=
  [("clinical_data", "Likely raw clinical inputs or measurements."),
   ("code", "Generic code/reference table."),
   ("code_redemption", "Code usage or redemption tracking."),
   ("control_plus", "Control/telemetry data for plus variant."),
   ("device_cloud_messaging", "Device messaging or telemetry stream."),
   ("metric_app", "Metrics captured from app."),
   ("metric_plus", "Metrics captured from plus variant."),
   ("prediction_data_source_clinical", "Clinical data source for predictions."),
   ("prescription_change_reason", "Reasons for prescription changes."),
   ("reference_date_wear", "Reference dates for wear data."),
   ("station", "Device or station metadata."),
   ("tree", "Generic hierarchy/tree structure.")]

def MISC_SUBGROUP_DESCRIPTIONS : List (String × String) :=
  [("Clinical and Data Sources", "Clinical source data and clinical prediction sources."),
   ("Device and Telemetry", "Device, station, and telemetry related tables."),
   ("Metrics and Monitoring", "Metrics captured from applications."),
   ("Codes and Reference", "Codes, code usage, and reference structures."),
   ("Prescription Support", "Supporting data for prescription changes."),
   ("Other", "Miscellaneous tables that do not fit other subgroups.")]

def TABLE_DESCRIPTION_OVERRIDES : List (String × String) :=
  [("patient", "Main patient table at signup with identity and demographic fields."),
   ("patient_aisn_data", "AISN-related patient data (experimental group, demographics, start date)."),
   ("clinical_trials", "Clinical trial scores and assessments for enrolled patients."),
   ("prescription_staging", "Recsys-staged prescriptions awaiting clinician approval."),
   ("prescription_plus", "Clinician-approved prescriptions (moved from staging)."),
   ("recsys_metrics", "Metrics used by the recommender system (delta_dm, adherence, PPF, etc.)."),
   ("recsys_intrinsic_measures", "Clinic evaluation milestones (baseline, end, follow-up)."),
   ("recsys_diagnostic", "Home diagnostic evaluation schedules for RGS app protocols."),
   ("recsys_notes", "Clinician notes associated with recommender system output."),
   ("prescription_change_reason", "Reasons for prescription changes.")]

def FAMILY_DESCRIPTION_OVERRIDES : List (String × String) :=
  [("session", "Session instances tied to prescriptions (id, status, timing)."),
   ("recording", "Session recordings including duration and other capture metrics."),
   ("parameter", "Last logged difficulty modulator for a session."),
   ("difficulty_modulators", "Time series of difficulty modulator values per patient/protocol."),
   ("performance_estimators", "Time series of performance estimators used to adapt difficulty."),
   ("prescription", "Prescriptions across app/clinic/home/plus/web contexts."),
   ("metric", "Kinematic feature measurements (e.g., displacement, volume, surface area).")]

def TABLE_GROUP_SET : List (String × List String) :=
  [("metric_app", ["Kinematic Features"]),
   ("metric_plus", ["Kinematic Features"]),
   ("prescription_change_reason", ["Prescriptions", "RecSys"])]

def TABLE_GROUP_ADD : List (String × List String) :=
  [("patient_aisn_data", ["AISN"]),
   ("clinical_trials", ["AISN"])]

/-- A relationship record (`source`, `target`, `columns`, `type`, `note`). -/
structure Relationship where
  source : String
  target : String
  columns : List String
  type : String
  note : String
deriving DecidableEq

def EXPLICIT_RELATIONSHIPS : List Relationship :=
  [{ source := "patient", target := "hospital", columns := ["hospital_id"],
     type := "foreign_key", note := "Each patient is assigned to a hospital." },
   { source := "recsys_metrics", target := "prescription_staging",
     columns := ["recommendation_id"], type := "reference",
     note := "Recsys metrics are tied to staged prescriptions." }]

/-! ### Helper functions of `scripts/build_taxonomy.py` -/

/-- Auxiliary state machine for `titleize` (Python `str.title()`): upper-case a
letter that follows a non-letter, lower-case the others. -/
def titleizeGo : List Char → Bool → List Char
  | [], _ => []
  | c :: rest, prevAlpha =>
    (if prevAlpha then c.toLower else c.toUpper) :: titleizeGo rest c.isAlpha

/-- `titleize`: `name.replace("_", " ").title()`. -/
def titleize (name : String) : String :=
  ⟨titleizeGo (name.data.map (fun c => if c = '_' then ' ' else c)) false⟩

/-- Python `s.split(sep)` for a one-character separator (keeps empty pieces). -/
def splitSepAux (sep : Char) : List Char → List Char → List String
  | [], acc => [⟨acc.reverse⟩]
  | c :: rest, acc =>
    if c = sep then (⟨acc.reverse⟩ : String) :: splitSepAux sep rest []
    else splitSepAux sep rest (c :: acc)

def splitSep (sep : Char) (s : String) : List String := splitSepAux sep s.data []

/-- `family_name`: split on `_`; if the last segment is in `SUFFIXES`, return the
remainder joined by `_`, else `None`.  (A bare suffix such as `"app"` yields
`some ""`, exactly as in Python.) -/
def family_name (table : String) : Option String :=
  let parts := splitSep '_' table
  match parts.getLast? with
  | some last =>
    if last ∈ SUFFIXES then some (String.intercalate "_" parts.dropLast) else none
  | none => none

/-- Python `str.strip()` (whitespace at both ends). -/
def pstrip (s : List Char) : List Char :=
  ((s.dropWhile Char.isWhitespace).reverse.dropWhile Char.isWhitespace).reverse

def pstripS (s : List Char) : String := ⟨pstrip s⟩

/-- Does `sep` occur as a leading block of `s`? -/
def leadsWith : List Char → List Char → Bool
  | [], _ => true
  | _ :: _, [] => false
  | x :: xs, y :: ys => x == y && leadsWith xs ys

/-- Python `s.split(sep, 1)` for a multi-character separator: split at the first
occurrence, returning the parts before and after; `none` if `sep` is absent. -/
def breakAtSub (sep : List Char) : List Char → Option (List Char × List Char)
  | [] => none
  | c :: rest =>
    if leadsWith sep (c :: rest) then some ([], (c :: rest).drop sep.length)
    else (breakAtSub sep rest).map (fun p => (c :: p.1, p.2))

/-- A parsed column record. -/
structure ColumnRec where
  name : String
  data_type : String
  description : String
deriving DecidableEq

/-- Python `s.lstrip(":")`. -/
def stripColon (s : List Char) : List Char := s.dropWhile (· == ':')

/-- `parse_column`: best-effort parse of `"name (TYPE): description"`. -/
def parse_column (col_str : String) : ColumnRec :=
  match breakAtSub " (".data col_str.data with
  | none => { name := pstripS col_str.data, data_type := "", description := "" }
  | some (namePart, rest) =>
    match breakAtSub "):".data rest with
    | some (dt, ds) =>
      { name := pstripS namePart, data_type := pstripS dt,
        description := pstripS (stripColon (pstrip ds)) }
    | none =>
      match breakAtSub ")".data rest with
      | some (dt, ds) =>
        { name := pstripS namePart, data_type := pstripS dt,
          description := pstripS (stripColon (pstrip ds)) }
      | none =>
        { name := pstripS namePart, data_type := pstripS rest, description := "" }

/-- `apply_table_description`: per-table override wins, else the family
description override, else the default. -/
def apply_table_description (table_name default_desc : String) : String :=
  let override := (dget TABLE_DESCRIPTION_OVERRIDES table_name).getD ""
  if override ≠ "" then override
  else
    match family_name table_name with
    | some fam =>
      if fam ≠ "" then
        match dget FAMILY_DESCRIPTION_OVERRIDES fam with
        | some d => d
        | none => default_desc
      else default_desc
    | none => default_desc

/-- First loop of `build_families`: occurrence counts of each base name.
Python's `if fam:` truthiness test is `fam ≠ ""` on the optional base name. -/
def famCounts (tables : List String) : List (String × Nat) :=
  tables.foldl (fun d t =>
    match family_name t with
    | some fam => if fam ≠ "" then dset d fam ((dget d fam).getD 0 + 1) else d
    | none => d) []

/-- Second loop of `build_families`: collect members of base names whose count
exceeds one. -/
def famGroups (counts : List (String × Nat)) (tables : List String) :
    List (String × List String) :=
  tables.foldl (fun d t =>
    match family_name t with
    | some fam =>
      if fam ≠ "" ∧ 1 < (dget counts fam).getD 0 then
        dset d fam ((dget d fam).getD [] ++ [t])
      else d
    | none => d) []

/-- `build_families`: count base names, keep those occurring more than once,
collect and sort their member tables. -/
def build_families (tables : List String) : List (String × List String) :=
  (famGroups (famCounts tables) tables).map (fun p => (p.1, sortStr p.2))

/-! ### Input and output data model of `build_taxonomy` -/

/-- One record of the input `tables` sequence (absent JSON keys default). -/
structure InputTable where
  table : String
  description : String
  groups : List String
  columns : List String
deriving DecidableEq

/-- One value of the input `metadata.groups` mapping. -/
structure InputGroup where
  description : String
  parent_groups : List String
deriving DecidableEq

/-- The input snapshot (`context.json`). -/
structure ContextData where
  groups : List (String × InputGroup)
  tables : List InputTable
deriving DecidableEq

/-- A normalized group record (`{description, parent_groups, tables}`). -/
structure GroupRec where
  description : String
  parent_groups : List String
  tables : List String
deriving DecidableEq

/-- A `table_index` record. -/
structure TableInfo where
  label : String
  description : String
  groups : List String
  domains : List String
  family : String
deriving DecidableEq

/-- A `table_details` record. -/
structure TableDetail where
  description : String
  columns : List ColumnRec
deriving DecidableEq

/-- A rendered table family (`{family, label, variants}`). -/
structure FamilyView where
  family : String
  label : String
  variants : List String
deriving DecidableEq

/-- A rendered standalone table (`{table, label, note}`). -/
structure TableEntry where
  table : String
  label : String
  note : String
deriving DecidableEq

/-- A rendered Miscellaneous subgroup. -/
structure SubgroupView where
  name : String
  description : String
  table_families : List FamilyView
  tables : List TableEntry
deriving DecidableEq

/-- A rendered group view. -/
structure GroupView where
  name : String
  description : String
  table_families : List FamilyView
  tables : List TableEntry
  subgroups : List SubgroupView
deriving DecidableEq

/-- A rendered domain. -/
structure DomainView where
  name : String
  description : String
  groups : List GroupView
deriving DecidableEq

/-- The output structure written to `taxonomy.json`. -/
structure Taxonomy where
  taxonomy_version : String
  source : String
  goals : List String
  domains : List DomainView
  group_hierarchy : List (String × GroupRec)
  table_index : List (String × TableInfo)
  table_details : List (String × TableDetail)
  explicit_relationships : List Relationship
deriving DecidableEq

/-! ### The `build_taxonomy` pipeline -/

/-- Table → resolved description mapping. -/
def tableDescriptionsOf (tables : List InputTable) : List (String × String) :=
  tables.foldl (fun d t => dset d t.table (apply_table_description t.table t.description)) []

/-- The loop body computing a table's final group list: full-replacement
override, else declared groups unioned with additive override entries;
deduplicated and sorted. -/
def resolveGroups (name : String) (base_groups : List String) : List String :=
  let group_list :=
    match dget TABLE_GROUP_SET name with
    | some l => l
    | none =>
      ((dget TABLE_GROUP_ADD name).getD []).foldl
        (fun gl g => if g ∈ gl then gl else gl ++ [g]) base_groups
  sortedSet group_list

/-- Table → groups mapping (with overrides applied). -/
def tableToGroups (tables : List InputTable) : List (String × List String) :=
  tables.foldl (fun d t => dset d t.table (resolveGroups t.table t.groups)) []

/-- Tables whose resolved group list is empty, in mapping order. -/
def ungroupedOf (t2g : List (String × List String)) : List String :=
  t2g.filterMap (fun p => if p.2 = [] then some p.1 else none)

/-- Normalize the declared groups (tables reset to empty). -/
def ngStep1 (gs : List (String × InputGroup)) : List (String × GroupRec) :=
  gs.foldl (fun d p =>
    dset d p.1 { description := p.2.description, parent_groups := p.2.parent_groups, tables := [] }) []

/-- Ensure every canonically-named group exists. -/
def ngStep2 (d0 : List (String × GroupRec)) : List (String × GroupRec) :=
  GROUP_DESCRIPTIONS.foldl (fun d p =>
    if (dget d p.1).isSome then d
    else dset d p.1 { description := p.2, parent_groups := [], tables := [] }) d0

/-- Append `tname` to group `gname`'s table list, creating the group on the fly
if needed. -/
def addTableToGroup (d : List (String × GroupRec)) (gname tname : String) :
    List (String × GroupRec) :=
  match dget d gname with
  | some r => dset d gname { r with tables := r.tables ++ [tname] }
  | none =>
    dset d gname
      { description := (dget GROUP_DESCRIPTIONS gname).getD "", parent_groups := [],
        tables := [tname] }

/-- Populate group table lists from the table → groups mapping. -/
def ngStep3 (d0 : List (String × GroupRec)) (t2g : List (String × List String)) :
    List (String × GroupRec) :=
  t2g.foldl (fun d p => p.2.foldl (fun d' g => addTableToGroup d' g p.1) d) d0

/-- Update the value at an existing key in place. -/
def dupdate {α : Type} (d : List (String × α)) (k : String) (f : α → α) :
    List (String × α) :=
  d.map (fun p => if p.1 = k then (p.1, f p.2) else p)

/-- Assign the sorted ungrouped tables to the Miscellaneous group. -/
def ngStep4 (d : List (String × GroupRec)) (ungrouped : List String) :
    List (String × GroupRec) :=
  dupdate d "Miscellaneous" (fun r => { r with tables := sortStr ungrouped })

/-- Strip AISN from every other group's parent list. -/
def ngStep5 (d : List (String × GroupRec)) : List (String × GroupRec) :=
  d.map (fun p =>
    if p.1 ≠ "AISN" then
      (p.1, { p.2 with parent_groups := p.2.parent_groups.filter (· ≠ "AISN") })
    else p)

/-- The full `normalized_groups` computation. -/
def normalizedGroupsOf (ctx : ContextData) : List (String × GroupRec) :=
  ngStep5 (ngStep4 (ngStep3 (ngStep2 (ngStep1 ctx.groups)) (tableToGroups ctx.tables))
    (ungroupedOf (tableToGroups ctx.tables)))

/-- The Miscellaneous subgroup routing rule (fixed allow-lists, `Other` fallback). -/
def miscBucket (table : String) : String :=
  if table = "metric_app" ∨ table = "metric_plus" then "Metrics and Monitoring"
  else if table = "clinical_data" ∨ table = "prediction_data_source_clinical" then
    "Clinical and Data Sources"
  else if table = "device_cloud_messaging" ∨ table = "station" ∨ table = "control_plus" ∨
      table = "reference_date_wear" then "Device and Telemetry"
  else if table = "code" ∨ table = "code_redemption" ∨ table = "tree" then
    "Codes and Reference"
  else if table = "prescription_change_reason" then "Prescription Support"
  else "Other"

/-- Route each ungrouped table to its Miscellaneous subgroup; sort each bucket. -/
def miscSubgroupsOf (ungrouped : List String) : List (String × List String) :=
  let d := ungrouped.foldl (fun d t =>
    dset d (miscBucket t) ((dget d (miscBucket t)).getD [] ++ [t])) []
  d.map (fun p => (p.1, sortStr p.2))

/-- The set of tables that belong to some family of `fams`. -/
def familyTablesOf (fams : List (String × List String)) : List String :=
  fams.flatMap (fun p => p.2)

/-- Rendered family views, sorted by family base name. -/
def famViewsOf (fams : List (String × List String)) : List FamilyView :=
  (sortStr (dkeys fams)).map (fun fam =>
    { family := fam, label := titleize fam, variants := (dget fams fam).getD [] })

/-- Rendered standalone table entries. -/
def tableEntriesOf (ts : List String) : List TableEntry :=
  ts.map (fun t => { table := t, label := titleize t, note := (dget UNCATEGORIZED_NOTES t).getD "" })

/-- The rendered view of one group (with the Miscellaneous special case). -/
def buildGroupView (ng : List (String × GroupRec))
    (miscSubs : List (String × List String)) (group_name : String) : GroupView :=
  let group_tables := sortStr (((dget ng group_name).map (fun r => r.tables)).getD [])
  let families := build_families group_tables
  let standalone := group_tables.filter (fun t => !(familyTablesOf families).contains t)
  let base : GroupView :=
    { name := group_name,
      description :=
        (dget GROUP_DESCRIPTIONS group_name).getD
          (((dget ng group_name).map (fun r => r.description)).getD ""),
      table_families := famViewsOf families,
      tables := tableEntriesOf standalone,
      subgroups := [] }
  if group_name = "Miscellaneous" then
    { base with
      tables := [], table_families := [],
      subgroups := (sortStr (dkeys miscSubs)).map (fun bucket =>
        let bucket_tables := (dget miscSubs bucket).getD []
        let bucket_families := build_families bucket_tables
        let bucket_standalone :=
          bucket_tables.filter (fun t => !(familyTablesOf bucket_families).contains t)
        { name := bucket,
          description := (dget MISC_SUBGROUP_DESCRIPTIONS bucket).getD "",
          table_families := famViewsOf bucket_families,
          tables := tableEntriesOf bucket_standalone }) }
  else base

/-- The rendered domains, in the fixed `DOMAIN_GROUPS` order. -/
def domainsOf (ng : List (String × GroupRec)) (miscSubs : List (String × List String)) :
    List DomainView :=
  DOMAIN_GROUPS.map (fun p =>
    { name := p.1, description := "",
      groups := p.2.map (buildGroupView ng miscSubs) })

/-- Group name → domain name lookup. -/
def domainByGroupOf (domains : List DomainView) : List (String × String) :=
  domains.foldl (fun d dv => dv.groups.foldl (fun d' g => dset d' g.name dv.name) d) []

/-- The `table_index` record built for one table by the indexing loop. -/
def tableIndexEntry (t2g : List (String × List String))
    (domain_by_group : List (String × String)) (tdescr : List (String × String))
    (t : InputTable) : TableInfo :=
  let groups_for_table :=
    let g0 := (dget t2g t.table).getD []
    if g0 = [] then ["Miscellaneous"] else g0
  { label := titleize t.table,
    description := (dget tdescr t.table).getD "",
    groups := groups_for_table,
    domains := sortedSet (groups_for_table.map (fun g =>
      (dget domain_by_group g).getD "Miscellaneous")),
    family := (family_name t.table).getD "" }

/-- The `table_index` mapping. -/
def tableIndexOf (ctx : ContextData) (t2g : List (String × List String))
    (domain_by_group : List (String × String)) (tdescr : List (String × String)) :
    List (String × TableInfo) :=
  ctx.tables.foldl (fun d t => dset d t.table (tableIndexEntry t2g domain_by_group tdescr t)) []

/-- The `table_details` record built for one table by the indexing loop. -/
def tableDetailEntry (tdescr : List (String × String)) (t : InputTable) : TableDetail :=
  { description := (dget tdescr t.table).getD "",
    columns := t.columns.map parse_column }

/-- The `table_details` mapping. -/
def tableDetailsOf (ctx : ContextData) (tdescr : List (String × String)) :
    List (String × TableDetail) :=
  ctx.tables.foldl (fun d t => dset d t.table (tableDetailEntry tdescr t)) []

/-- `add_family_relationship`: for every suffix, emit a foreign-key relationship
between the two family variants when both constructed names exist. -/
def add_family_relationship (table_names : List String)
    (source_family target_family column note : String) : List Relationship :=
  SUFFIXES.filterMap (fun suffix =>
    let src := source_family ++ "_" ++ suffix
    let tgt := target_family ++ "_" ++ suffix
    if src ∈ table_names ∧ tgt ∈ table_names then
      some { source := src, target := tgt, columns := [column],
             type := "foreign_key", note := note }
    else none)

/-- The four generated family-relationship blocks, in source order. -/
def genRels (table_names : List String) : List Relationship :=
  add_family_relationship table_names "session" "prescription" "prescription_id"
      "Each session corresponds to a prescription."
    ++ add_family_relationship table_names "recording" "session" "session_id"
      "Each recording corresponds to a session."
    ++ add_family_relationship table_names "parameter" "session" "session_id"
      "Parameter contains the last logged difficulty modulator for a session."
    ++ add_family_relationship table_names "performance_estimators" "difficulty_modulators"
      "session_id" "Performance estimators inform difficulty modulator updates."

/-- The whole `build_taxonomy` transform (file I/O and markdown redering are
boundary effects outside the embedded core). -/
def build_taxonomy (ctx : ContextData) : Taxonomy :=
  let t2g := tableToGroups ctx.tables
  let tdescr := tableDescriptionsOf ctx.tables
  let ng := normalizedGroupsOf ctx
  let miscSubs := miscSubgroupsOf (ungroupedOf t2g)
  let domains := domainsOf ng miscSubs
  let domain_by_group := domainByGroupOf domains
  let table_names := ctx.tables.map (fun t => t.table)
  { taxonomy_version := "1.0",
    source := INPUT_FILE,
    goals :=
      ["Make browsing intuitive and non-overwhelming",
       "Make it easy to identify what a table represents",
       "Provide a clean hierarchy with table families"],
    domains := domains,
    group_hierarchy := ng,
    table_index := tableIndexOf ctx t2g domain_by_group tdescr,
    table_details := tableDetailsOf ctx tdescr,
    explicit_relationships := EXPLICIT_RELATIONSHIPS ++ genRels table_names }

/-! ### Text normalisation of `scripts/taxonomy_browser.py`

`normalize` lower-cases, collapses every run of non-alphanumeric characters to
a single space and strips the ends; `compact` removes the non-alphanumeric
characters entirely.  We work on `List Char`; `lowerC` is the ASCII model of
Python `str.lower()`. -/

def lowerC (c : Char) : Char :=
  if 'A' ≤ c ∧ c ≤ 'Z' then Char.ofNat (c.toNat + 32) else c

def lowerL (s : List Char) : List Char := s.map lowerC

/-- Characters kept by the `[^a-z0-9]` pattern (after lower-casing). -/
def keepC (c : Char) : Bool := ('a' ≤ c && c ≤ 'z') || ('0' ≤ c && c ≤ '9')

/-- Replace every run of non-keep characters by a single space.  The Boolean
records whether we are inside a run whose space was already emitted. -/
def collapseRun : List Char → Bool → List Char
  | [], _ => []
  | c :: rest, true =>
    if keepC c then c :: collapseRun rest false else collapseRun rest true
  | c :: rest, false =>
    if keepC c then c :: collapseRun rest false else ' ' :: collapseRun rest true

def collapseNon (s : List Char) : List Char := collapseRun s false

/-- Strip spaces from both ends (the only whitespace a collapsed string can
contain is `' '`). -/
def stripSp (s : List Char) : List Char :=
  ((s.dropWhile (· == ' ')).reverse.dropWhile (· == ' ')).reverse

/-- `normalize` on character lists. -/
def normalizeL (s : List Char) : List Char := stripSp (collapseNon (lowerL s))

/-- `compact` on character lists. -/
def compactL (s : List Char) : List Char := (lowerL s).filter keepC

/-- Maximal runs of characters satisfying `p` (accumulator holds the current
run reversed).  With `p := (· ≠ ' ')` this is Python `str.split()` restricted
to space-separated text, which is all `normalize` ever produces. -/
def runsAux (p : Char → Bool) : List Char → List Char → List (List Char)
  | [], acc => if acc = [] then [] else [acc.reverse]
  | c :: rest, acc =>
    if p c then runsAux p rest (c :: acc)
    else if acc = [] then runsAux p rest [] else acc.reverse :: runsAux p rest []

/-- Python `str.split()` on normalised text. -/
def splitSp (s : List Char) : List (List Char) := runsAux (fun c => !(c == ' ')) s []

/-! ### `difflib.SequenceMatcher.ratio`

Modelled by the documented recursive matching-blocks computation: find the
longest matching block (earliest in `a`, then in `b`), recurse on both sides,
and sum the block sizes; `ratio = 2*M/(len(a)+len(b))`.  (The autojunk
heuristic only activates for sequences of length ≥ 200 and is not modelled.)
The recursion is driven by a fuel argument `|a| + |b|`, which strictly bounds
the recursion depth, so the fuel never runs out. -/

/-- Length of the common leading block of two sequences. -/
def cpl : List Char → List Char → Nat
  | x :: xs, y :: ys => if x = y then cpl xs ys + 1 else 0
  | _, _ => 0

/-- `find_longest_match` over the whole sequences: the `(i, j, size)` of the
longest matching block, preferring the earliest `i`, then the earliest `j`. -/
def flm (a b : List Char) : Nat × Nat × Nat :=
  (List.range a.length).foldl (fun best i =>
    (List.range b.length).foldl (fun best' j =>
      let k := cpl (a.drop i) (b.drop j)
      if best'.2.2 < k then (i, j, k) else best') best) (0, 0, 0)

/-- Total size of the matching blocks (`get_matching_blocks` sum), with fuel. -/
def matchSizeF : Nat → List Char → List Char → Nat
  | 0, _, _ => 0
  | fuel + 1, a, b =>
    if (flm a b).2.2 = 0 then 0
    else
      matchSizeF fuel (a.take (flm a b).1) (b.take (flm a b).2.1) + (flm a b).2.2 +
        matchSizeF fuel (a.drop ((flm a b).1 + (flm a b).2.2))
          (b.drop ((flm a b).2.1 + (flm a b).2.2))

def matchSize (a b : List Char) : Nat := matchSizeF (a.length + b.length) a b

/-- `SequenceMatcher(None, a, b).ratio()` as an exact rational. -/
def ratioQ (a b : List Char) : ℚ :=
  if a.length + b.length = 0 then 1
  else 2 * (matchSize a b : ℚ) / ((a.length + b.length : Nat) : ℚ)

/-! ### `fuzzy_score` and the search pipeline -/

/-- `fuzzy_score` on character lists: the maximum of the two sequence ratios
and the token-overlap signal, with the empty-input guards of the source. -/
def fuzzyL (query text : List Char) : ℚ :=
  if query = [] ∨ text = [] then 0
  else
    let q_norm := normalizeL query
    let t_norm := normalizeL text
    if q_norm = [] ∨ t_norm = [] then 0
    else
      let ratio := ratioQ q_norm t_norm
      let ratio_compact := ratioQ (compactL query) (compactL text)
      let q_tokens := (splitSp q_norm).dedup
      let t_tokens := (splitSp t_norm).dedup
      let overlap : ℚ :=
        ((q_tokens.filter (fun w => decide (w ∈ t_tokens))).length : ℚ) /
          ((max 1 q_tokens.length : Nat) : ℚ)
      max ratio (max ratio_compact overlap)

def fuzzy_score (query text : String) : ℚ := fuzzyL query.data text.data

/-- Descending-by-score ordering used for result lists. -/
def descRel {α : Type} (f : α → ℚ) : α → α → Prop := fun x y => f y ≤ f x

instance {α : Type} (f : α → ℚ) : DecidableRel (descRel f) := fun x y => by
  unfold descRel
  infer_instance

instance {α : Type} (f : α → ℚ) : IsTotal α (descRel f) :=
  ⟨fun x y => le_total (f y) (f x)⟩

instance {α : Type} (f : α → ℚ) : IsTrans α (descRel f) :=
  ⟨fun _ _ _ hxy hyz => le_trans hyz hxy⟩

/-- Python `list.sort(reverse=True, key=f)` (ties modelled up to order). -/
def sortDescBy {α : Type} (f : α → ℚ) (l : List α) : List α :=
  l.insertionSort (descRel f)

/-- One entry of the search result list:
`(score, table_name, table_index_record, top_column_hits)`. -/
structure SearchResult where
  score : ℚ
  table : String
  info : TableInfo
  hits : List (ℚ × String × String)
deriving DecidableEq

/-- The base score of a table: best of name, description and joined groups. -/
def base_score (query table_name : String) (info : TableInfo) : ℚ :=
  max (fuzzy_score query table_name)
    (max (fuzzy_score query info.description)
      (fuzzy_score query (String.intercalate " " info.groups)))

/-- The scored result for one `table_index` entry: qualifying column hits
(score ≥ 0.4) sorted descending, best column score, overall score. -/
def tableResult (query : String) (table_details : List (String × TableDetail))
    (p : String × TableInfo) : SearchResult :=
  let column_hits :=
    (((dget table_details p.1).map (fun d => d.columns)).getD []).filterMap (fun col =>
      let score := fuzzy_score query (col.name ++ " " ++ col.description)
      if (0.4 : ℚ) ≤ score then some (score, col.name, col.description) else none)
  let sorted_hits := sortDescBy (fun h => h.1) column_hits
  let best_column_score := ((sorted_hits.head?).map (fun h => h.1)).getD 0
  { score := max (base_score query p.1 p.2) best_column_score,
    table := p.1, info := p.2, hits := sorted_hits.take 3 }

/-- The retained results (overall score ≥ 0.35), sorted descending by score. -/
def searchResults (query : String) (table_index : List (String × TableInfo))
    (table_details : List (String × TableDetail)) : List SearchResult :=
  sortDescBy (fun r => r.score)
    (table_index.filterMap (fun p =>
      let r := tableResult query table_details p
      if (0.35 : ℚ) ≤ r.score then some r else none))

/-- The displayed results: at most the top 15. -/
def searchTop (query : String) (table_index : List (String × TableInfo))
    (table_details : List (String × TableDetail)) : List SearchResult :=
  (searchResults query table_index table_details).take 15

/-- The claim's formulation of a table's overall score: the maximum of the base
score and the best column score among columns scoring at least 0.4 (0 if none).
Stated independently of the result pipeline, for comparison with it. -/
def bestColumnScore (query : String) (cols : List ColumnRec) : ℚ :=
  ((cols.map (fun col => fuzzy_score query (col.name ++ " " ++ col.description))).filter
    (fun s => decide ((0.4 : ℚ) ≤ s))).foldr max 0

def overallScore (query : String) (table_details : List (String × TableDetail))
    (p : String × TableInfo) : ℚ :=
  max (base_score query p.1 p.2)
    (bestColumnScore query (((dget table_details p.1).map (fun d => d.columns)).getD []))

/-- The text `t` extended with a verbatim repetition of the normalized tokens
of the query `q` (the normalized query is exactly its tokens joined by single
spaces). -/
def extendWithQueryTokens (t q : String) : String := t ++ " " ++ (⟨normalizeL q.data⟩ : String)

/-! ### Generic lemmas about keyed-insert folds -/

theorem dget_foldl_dset_notMem {α β : Type} (key : α → String) (val : α → β) :
    ∀ (l : List α) (d0 : List (String × β)) (k : String), k ∉ l.map key →
      dget (l.foldl (fun d y => dset d (key y) (val y)) d0) k = dget d0 k := by
  intro l
  induction l with
  | nil => intro d0 k _; rfl
  | cons y rest ih =>
    intro d0 k hk
    rw [List.map_cons, List.mem_cons] at hk
    push_neg at hk
    rw [List.foldl_cons, ih _ _ hk.2, dget_dset_ne _ _ _ (fun h => hk.1 h.symm)]

theorem dget_foldl_dset_mem {α β : Type} (key : α → String) (val : α → β) :
    ∀ (l : List α) (d0 : List (String × β)) (x : α),
      (l.map key).Nodup → x ∈ l →
      dget (l.foldl (fun d y => dset d (key y) (val y)) d0) (key x) = some (val x) := by
  intro l
  induction l with
  | nil => intro d0 x _ hx; simp at hx
  | cons y rest ih =>
    intro d0 x hnd hx
    rw [List.map_cons, List.nodup_cons] at hnd
    rw [List.mem_cons] at hx
    rcases hx with rfl | hx
    · rw [List.foldl_cons,
        dget_foldl_dset_notMem key val rest _ (key x) hnd.1, dget_dset_self]
    · exact ih _ x hnd.2 hx

theorem dget_foldl_dset_isSome {α β : Type} (key : α → String) (val : α → β) :
    ∀ (l : List α) (d0 : List (String × β)) (k : String),
      (dget (l.foldl (fun d y => dset d (key y) (val y)) d0) k).isSome ↔
        (dget d0 k).isSome ∨ k ∈ l.map key := by
  intro l
  induction l with
  | nil => intro d0 k; simp
  | cons y rest ih =>
    intro d0 k
    rw [List.foldl_cons, ih, List.map_cons, List.mem_cons]
    by_cases h : key y = k
    · subst h
      simp [dget_dset_self]
    · rw [dget_dset_ne _ _ _ h]
      constructor
      · rintro (hs | hm)
        · exact Or.inl hs
        · exact Or.inr (Or.inr hm)
      · rintro (hs | rfl | hm)
        · exact Or.inl hs
        · exact absurd rfl h
        · exact Or.inr hm

theorem dget_foldl_dset_prop {α β : Type} (key : α → String) (val : α → β)
    (P : String → β → Prop) :
    ∀ (l : List α) (d0 : List (String × β)),
      (∀ k v, dget d0 k = some v → P k v) →
      (∀ x ∈ l, P (key x) (val x)) →
      ∀ k v, dget (l.foldl (fun d y => dset d (key y) (val y)) d0) k = some v → P k v := by
  intro l
  induction l with
  | nil => intro d0 hd0 _ k v h; exact hd0 k v h
  | cons y rest ih =>
    intro d0 hd0 hval k v h
    rw [List.foldl_cons] at h
    refine ih _ ?_ (fun x hx => hval x (List.mem_cons_of_mem _ hx)) k v h
    intro k' v' h'
    rw [dget_dset] at h'
    by_cases hk : key y = k'
    · rw [if_pos hk] at h'
      cases h'
      exact hk ▸ hval y (List.mem_cons_self y rest)
    · rw [if_neg hk] at h'
      exact hd0 k' v' h'

theorem nodup_dkeys_foldl_dset {α β : Type} (key : α → String) (val : α → β) :
    ∀ (l : List α) (d0 : List (String × β)), (dkeys d0).Nodup →
      (dkeys (l.foldl (fun d y => dset d (key y) (val y)) d0)).Nodup := by
  intro l
  induction l with
  | nil => intro d0 h; exact h
  | cons y rest ih =>
    intro d0 h
    exact ih _ (nodup_dkeys_dset _ _ _ h)

/-! ### Claim C8: best-effort column parsing -/

/-- C8: column parsing is total and best-effort.  The well-formed string
`"patient_id (INT): Unique identifier"` parses into its three parts, a bare
name parses with empty type and description, and when the `" ("` delimiter (or
both closing delimiters) is absent the missing parts default to the empty
string while the unambiguous portions are still extracted. -/
theorem C8_parse_column_best_effort :
    parse_column "patient_id (INT): Unique identifier" =
      { name := "patient_id", data_type := "INT", description := "Unique identifier" } ∧
    parse_column "status" = { name := "status", data_type := "", description := "" } ∧
    (∀ s : String, breakAtSub " (".data s.data = none →
      parse_column s = { name := pstripS s.data, data_type := "", description := "" }) ∧
    (∀ s : String, ∀ np rest, breakAtSub " (".data s.data = some (np, rest) →
      breakAtSub "):".data rest = none → breakAtSub ")".data rest = none →
      parse_column s = { name := pstripS np, data_type := pstripS rest, description := "" }) := by
  refine ⟨by decide, by decide, ?_, ?_⟩
  · intro s h
    simp [parse_column, h]
  · intro s np rest h₁ h₂ h₃
    simp [parse_column, h₁, h₂, h₃]

/-- Witness for C8: the universally quantified conjuncts applied at concrete
malformed column strings. -/
theorem C8_witness :
    parse_column "plain name" =
      { name := "plain name", data_type := "", description := "" } ∧
    parse_column "col (INT" =
      { name := "col", data_type := "INT", description := "" } :=
  ⟨C8_parse_column_best_effort.2.2.1 "plain name" (by decide),
   C8_parse_column_best_effort.2.2.2 "col (INT" "col".data "INT".data
     (by decide) (by decide) (by decide)⟩

/-! ### Claim C7: Miscellaneous suppresses its group-level listings -/

/-- C7: whenever a group view in the built domains has a non-empty `subgroups`
list (which only the Miscellaneous group ever gets), its own `tables` and
`table_families` fields are empty, so miscellaneous tables are reachable only
through subgroups. -/
theorem C7_misc_suppresses_group_level_lists :
    ∀ (ctx : ContextData), ∀ d ∈ (build_taxonomy ctx).domains, ∀ g ∈ d.groups,
      g.subgroups ≠ [] → g.tables = [] ∧ g.table_families = [] := by
  intro ctx d hd g hg hne
  simp only [build_taxonomy, domainsOf, List.mem_map] at hd
  obtain ⟨p, -, rfl⟩ := hd
  simp only [List.mem_map] at hg
  obtain ⟨gname, -, rfl⟩ := hg
  by_cases hm : gname = "Miscellaneous"
  · constructor <;> simp [buildGroupView, hm]
  · exact absurd (by simp [buildGroupView, hm]) hne

def ctxC7w : ContextData := ⟨[], [⟨"zzz", "", [], []⟩]⟩

def miscGroupC7w : GroupView :=
  ⟨"Miscellaneous", "Ungrouped or uncategorized tables.", [], [],
   [⟨"Other", "Miscellaneous tables that do not fit other subgroups.", [],
     [⟨"zzz", "Zzz", ""⟩]⟩]⟩

def miscDomainC7w : DomainView := ⟨"Miscellaneous", "", [miscGroupC7w]⟩

/-- Witness for C7 at a one-table input whose table is ungrouped. -/
theorem C7_witness :
    miscGroupC7w.tables = [] ∧ miscGroupC7w.table_families = [] :=
  C7_misc_suppresses_group_level_lists ctxC7w miscDomainC7w (by decide)
    miscGroupC7w (by decide) (by decide)

/-! ### Claim C5: group membership override precedence -/

theorem mem_foldl_groupUnion (adds : List String) :
    ∀ (base : List String) (g : String),
      g ∈ adds.foldl (fun gl x => if x ∈ gl then gl else gl ++ [x]) base ↔
        g ∈ base ∨ g ∈ adds := by
  induction adds with
  | nil => intro base g; simp
  | cons a rest ih =>
    intro base g
    rw [List.foldl_cons, ih]
    by_cases ha : a ∈ base
    · rw [if_pos ha]
      constructor
      · rintro (h | h)
        · exact Or.inl h
        · exact Or.inr (List.mem_cons_of_mem _ h)
      · rintro (h | h)
        · exact Or.inl h
        · rw [List.mem_cons] at h
          rcases h with rfl | h
          · exact Or.inl ha
          · exact Or.inr h
    · rw [if_neg ha]
      constructor
      · rintro (h | h)
        · rw [List.mem_append, List.mem_singleton] at h
          rcases h with h | rfl
          · exact Or.inl h
          · exact Or.inr (List.mem_cons_self _ _)
        · exact Or.inr (List.mem_cons_of_mem _ h)
      · rintro (h | h)
        · exact Or.inl (List.mem_append.mpr (Or.inl h))
        · rw [List.mem_cons] at h
          rcases h with rfl | h
          · exact Or.inl (List.mem_append.mpr (Or.inr (List.mem_singleton.mpr rfl)))
          · exact Or.inr h

/-- C5: for every input table (table names assumed distinct, as for a real
snapshot), the stored group membership is computed by the claimed precedence:
a full-replacement entry is used verbatim (so a table in both override tables
follows the full-replacement entry), otherwise the declared list is unioned
with the additive entries; the result is always deduplicated and sorted. -/
theorem C5_group_override_precedence :
    ∀ (ctx : ContextData), (ctx.tables.map (fun t => t.table)).Nodup →
      ∀ t ∈ ctx.tables,
        dget (tableToGroups ctx.tables) t.table = some (resolveGroups t.table t.groups) ∧
        (∀ l, dget TABLE_GROUP_SET t.table = some l →
          ∀ g, g ∈ resolveGroups t.table t.groups ↔ g ∈ l) ∧
        (dget TABLE_GROUP_SET t.table = none →
          ∀ g, g ∈ resolveGroups t.table t.groups ↔
            g ∈ t.groups ∨ g ∈ (dget TABLE_GROUP_ADD t.table).getD []) ∧
        List.Sorted strLeP (resolveGroups t.table t.groups) ∧
        (resolveGroups t.table t.groups).Nodup := by
  intro ctx hnd t ht
  refine ⟨?_, ?_, ?_, sorted_sortedSet _, nodup_sortedSet _⟩
  · exact dget_foldl_dset_mem (fun t => t.table)
      (fun t => resolveGroups t.table t.groups) ctx.tables [] t hnd ht
  · intro l hl g
    rw [resolveGroups, hl, mem_sortedSet]
  · intro hl g
    rw [resolveGroups, hl, mem_sortedSet]
    exact mem_foldl_groupUnion _ _ _

def ctxC5w : ContextData :=
  ⟨[], [⟨"metric_app", "", ["X"], []⟩, ⟨"clinical_trials", "", ["Patient"], []⟩]⟩

/-- Witness for C5: a table with a full-replacement override and a table with
an additive override, in one concrete snapshot. -/
theorem C5_witness :
    dget (tableToGroups ctxC5w.tables) "metric_app" =
      some (resolveGroups "metric_app" ["X"]) ∧
    dget (tableToGroups ctxC5w.tables) "clinical_trials" =
      some (resolveGroups "clinical_trials" ["Patient"]) :=
  ⟨(C5_group_override_precedence ctxC5w (by decide) ⟨"metric_app", "", ["X"], []⟩
      (by decide)).1,
   (C5_group_override_precedence ctxC5w (by decide) ⟨"clinical_trials", "", ["Patient"], []⟩
      (by decide)).1⟩

/-! ### Claim C2: the `family` field of `table_index` records -/

/-- C2 is false on the code: the `family` field is the raw suffix decomposition
`family_name(name) or ""`, with no sibling check.  At the one-table input
`foo_app` the table is a singleton match (no second table shares the base
`foo`), yet its `family` field is `"foo"`, not `""` as the claim requires. -/
def ctxC2 : ContextData := ⟨[], [⟨"foo_app", "", [], []⟩]⟩

theorem C2_counterexample :
    (dget (build_taxonomy ctxC2).table_index "foo_app").map (fun i => i.family) =
      some "foo" ∧
    "foo" ≠ "" ∧
    (ctxC2.tables.map (fun t => t.table)).countP
      (fun n => family_name n == some "foo") = 1 :=
  ⟨by decide, by decide, by decide⟩

/-- C2 (amended): for every table record of the built index, the `family` field
is the suffix-decomposition base name whenever the table name decomposes with a
recognised suffix — whether or not any sibling shares that base — and the empty
string otherwise.  (Singleton matches also get the base name.) -/
theorem C2_family_field_amended :
    ∀ (ctx : ContextData) (name : String) (info : TableInfo),
      dget (build_taxonomy ctx).table_index name = some info →
      info.family = (family_name name).getD "" := by
  intro ctx name info h
  simp only [build_taxonomy, tableIndexOf] at h
  exact dget_foldl_dset_prop (fun t : InputTable => t.table)
    (fun t : InputTable => tableIndexEntry (tableToGroups ctx.tables)
      (domainByGroupOf (domainsOf (normalizedGroupsOf ctx)
        (miscSubgroupsOf (ungroupedOf (tableToGroups ctx.tables)))))
      (tableDescriptionsOf ctx.tables) t)
    (fun k v => v.family = (family_name k).getD "")
    ctx.tables [] (by intro k v h'; cases h') (fun x _ => rfl) name info h

/-- Witness for C2 (amended) at a concrete singleton-match input. -/
theorem C2_witness :
    ({ label := titleize "foo_app", description := "",
       groups := ["Miscellaneous"], domains := ["Miscellaneous"],
       family := "foo" } : TableInfo).family = (family_name "foo_app").getD "" :=
  C2_family_field_amended ctxC2 "foo_app" _ (by decide)

/-! ### Claim C1: relationship endpoints -/

/-- C1 is false on the code: the two declared relationships are emitted
unconditionally, with no endpoint check.  At an input whose only table is
`solo`, the first output relationship is `patient → hospital`, although
`patient` has no `table_index` entry. -/
def ctxC1 : ContextData := ⟨[], [⟨"solo", "", [], []⟩]⟩

theorem C1_counterexample :
    (build_taxonomy ctxC1).explicit_relationships.head? =
      some ⟨"patient", "hospital", ["hospital_id"], "foreign_key",
        "Each patient is assigned to a hospital."⟩ ∧
    dget (build_taxonomy ctxC1).table_index "patient" = none :=
  ⟨by decide, by decide⟩

theorem mem_add_family_relationship {names : List String}
    {sf tf col note : String} {r : Relationship}
    (h : r ∈ add_family_relationship names sf tf col note) :
    r.source ∈ names ∧ r.target ∈ names := by
  rw [add_family_relationship, List.mem_filterMap] at h
  obtain ⟨suf, -, h⟩ := h
  by_cases hc : sf ++ "_" ++ suf ∈ names ∧ tf ++ "_" ++ suf ∈ names
  · rw [if_pos hc] at h
    cases h
    exact hc
  · rw [if_neg hc] at h
    cases h

/-- C1 (amended): every relationship generated across family suffixes (that is,
every output relationship beyond the two declared ones) has both endpoints in
`table_index`; the two declared relationships are passed through with no
endpoint check and may dangle. -/
theorem C1_generated_relationship_endpoints :
    ∀ (ctx : ContextData) (r : Relationship),
      r ∈ (build_taxonomy ctx).explicit_relationships.drop 2 →
      (dget (build_taxonomy ctx).table_index r.source).isSome ∧
      (dget (build_taxonomy ctx).table_index r.target).isSome := by
  intro ctx r hr
  have hgen : r ∈ genRels (ctx.tables.map (fun t => t.table)) := by
    simpa [build_taxonomy, EXPLICIT_RELATIONSHIPS] using hr
  have hmem : r.source ∈ ctx.tables.map (fun t => t.table) ∧
      r.target ∈ ctx.tables.map (fun t => t.table) := by
    rw [genRels] at hgen
    simp only [List.mem_append] at hgen
    rcases hgen with ((h | h) | h) | h <;> exact mem_add_family_relationship h
  have hindex : ∀ name, name ∈ ctx.tables.map (fun t => t.table) →
      (dget (build_taxonomy ctx).table_index name).isSome := by
    intro name hname
    simp only [build_taxonomy, tableIndexOf]
    rw [dget_foldl_dset_isSome]
    exact Or.inr hname
  exact ⟨hindex _ hmem.1, hindex _ hmem.2⟩

def ctxC1w : ContextData :=
  ⟨[], [⟨"session_app", "", [], []⟩, ⟨"prescription_app", "", [], []⟩]⟩

/-! ### Characterisation of `build_families` (used by C4 and C10) -/

theorem dget_famCounts_aux :
    ∀ (tables : List String) (d0 : List (String × Nat)) (fam : String), fam ≠ "" →
      dget (tables.foldl (fun d t =>
        match family_name t with
        | some f => if f ≠ "" then dset d f ((dget d f).getD 0 + 1) else d
        | none => d) d0) fam =
      (if tables.countP (fun t => family_name t == some fam) = 0 then dget d0 fam
       else some ((dget d0 fam).getD 0 +
         tables.countP (fun t => family_name t == some fam))) := by
  intro tables
  induction tables with
  | nil => intro d0 fam _; simp
  | cons t rest ih =>
    intro d0 fam hfam
    rw [List.foldl_cons]
    cases hft : family_name t with
    | none =>
      have hne : (family_name t == some fam) = false := by rw [hft]; rfl
      have hcnt : List.countP (fun u => family_name u == some fam) (t :: rest) =
          List.countP (fun u => family_name u == some fam) rest := by
        simp [List.countP_cons, hne]
      rw [hcnt]
      simp only [hft]
      exact ih d0 fam hfam
    | some f =>
      by_cases hffam : f = fam
      · subst hffam
        have hp : (family_name t == some f) = true := by rw [hft]; exact beq_self_eq_true _
        have hcnt : List.countP (fun u => family_name u == some f) (t :: rest) =
            List.countP (fun u => family_name u == some f) rest + 1 := by
          simp [List.countP_cons, hp]
        rw [hcnt]
        simp only [hft]
        rw [if_pos hfam, ih _ f hfam, dget_dset_self]
        rw [if_neg (Nat.succ_ne_zero _)]
        by_cases hc : rest.countP (fun u => family_name u == some f) = 0
        · rw [if_pos hc, hc]
        · rw [if_neg hc]
          simp only [Option.getD_some]
          refine congrArg some ?_
          omega
      · have hne : (family_name t == some fam) = false := by
          rw [hft]
          exact beq_eq_false_iff_ne.mpr (fun h => hffam (Option.some.inj h))
        have hcnt : List.countP (fun u => family_name u == some fam) (t :: rest) =
            List.countP (fun u => family_name u == some fam) rest := by
          simp [List.countP_cons, hne]
        rw [hcnt]
        simp only [hft]
        by_cases hf : f = ""
        · subst hf
          rw [if_neg (by simp)]
          exact ih d0 fam hfam
        · rw [if_pos hf, ih _ fam hfam, dget_dset_ne _ _ _ hffam]

theorem dget_famGroups_aux (counts : List (String × Nat)) :
    ∀ (tables : List String) (d0 : List (String × List String)) (fam : String),
      fam ≠ "" →
      dget (tables.foldl (fun d t =>
        match family_name t with
        | some f =>
          if f ≠ "" ∧ 1 < (dget counts f).getD 0 then
            dset d f ((dget d f).getD [] ++ [t])
          else d
        | none => d) d0) fam =
      (if 1 < (dget counts fam).getD 0 ∧
          tables.filter (fun t => family_name t == some fam) ≠ [] then
        some ((dget d0 fam).getD [] ++ tables.filter (fun t => family_name t == some fam))
       else dget d0 fam) := by
  intro tables
  induction tables with
  | nil => intro d0 fam _; simp
  | cons t rest ih =>
    intro d0 fam hfam
    rw [List.foldl_cons]
    cases hft : family_name t with
    | none =>
      have hne : (family_name t == some fam) = false := by rw [hft]; rfl
      have hflt : (t :: rest).filter (fun u => family_name u == some fam) =
          rest.filter (fun u => family_name u == some fam) := by
        simp [List.filter_cons, hne]
      rw [hflt]
      simp only [hft]
      exact ih d0 fam hfam
    | some f =>
      by_cases hffam : f = fam
      · subst hffam
        have hp : (family_name t == some f) = true := by rw [hft]; exact beq_self_eq_true _
        have hflt : (t :: rest).filter (fun u => family_name u == some f) =
            t :: rest.filter (fun u => family_name u == some f) := by
          simp [List.filter_cons, hp]
        rw [hflt]
        simp only [hft]
        by_cases hcnt : 1 < (dget counts f).getD 0
        · rw [if_pos ⟨hfam, hcnt⟩, ih _ f hfam, dget_dset_self]
          by_cases hrest : rest.filter (fun u => family_name u == some f) = []
          · rw [if_neg (fun h => h.2 hrest), if_pos ⟨hcnt, List.cons_ne_nil _ _⟩, hrest]
          · rw [if_pos ⟨hcnt, hrest⟩, if_pos ⟨hcnt, List.cons_ne_nil _ _⟩]
            simp only [Option.getD_some]
            rw [List.append_assoc]
            rfl
        · rw [if_neg (fun h => hcnt h.2), ih _ f hfam,
            if_neg (fun h => hcnt h.1), if_neg (fun h => hcnt h.1)]
      · have hne : (family_name t == some fam) = false := by
          rw [hft]
          exact beq_eq_false_iff_ne.mpr (fun h => hffam (Option.some.inj h))
        have hflt : (t :: rest).filter (fun u => family_name u == some fam) =
            rest.filter (fun u => family_name u == some fam) := by
          simp [List.filter_cons, hne]
        rw [hflt]
        simp only [hft]
        by_cases hok : f ≠ "" ∧ 1 < (dget counts f).getD 0
        · rw [if_pos hok, ih _ fam hfam, dget_dset_ne _ _ _ hffam]
        · rw [if_neg hok]
          exact ih d0 fam hfam

theorem dget_famCounts_aux_empty :
    ∀ (tables : List String) (d0 : List (String × Nat)),
      dget (tables.foldl (fun d t =>
        match family_name t with
        | some f => if f ≠ "" then dset d f ((dget d f).getD 0 + 1) else d
        | none => d) d0) "" = dget d0 "" := by
  intro tables
  induction tables with
  | nil => intro d0; rfl
  | cons t rest ih =>
    intro d0
    rw [List.foldl_cons]
    cases hft : family_name t with
    | none => simp only [hft]; exact ih d0
    | some f =>
      by_cases hf : f = ""
      · subst hf
        simp only [hft]
        rw [if_neg (by simp)]
        exact ih d0
      · simp only [hft, if_pos hf]
        rw [ih _, dget_dset_ne _ _ _ hf]

theorem dget_famGroups_aux_empty (counts : List (String × Nat)) :
    ∀ (tables : List String) (d0 : List (String × List String)),
      dget (tables.foldl (fun d t =>
        match family_name t with
        | some f =>
          if f ≠ "" ∧ 1 < (dget counts f).getD 0 then
            dset d f ((dget d f).getD [] ++ [t])
          else d
        | none => d) d0) "" = dget d0 "" := by
  intro tables
  induction tables with
  | nil => intro d0; rfl
  | cons t rest ih =>
    intro d0
    rw [List.foldl_cons]
    cases hft : family_name t with
    | none => simp only [hft]; exact ih d0
    | some f =>
      by_cases hok : f ≠ "" ∧ 1 < (dget counts f).getD 0
      · simp only [hft, if_pos hok]
        rw [ih _, dget_dset_ne _ _ _ hok.1]
      · simp only [hft, if_neg hok]
        exact ih d0

theorem getD_famCounts (tables : List String) (fam : String) (hfam : fam ≠ "") :
    (dget (famCounts tables) fam).getD 0 =
      tables.countP (fun t => family_name t == some fam) := by
  rw [famCounts, dget_famCounts_aux tables [] fam hfam]
  by_cases hc : tables.countP (fun t => family_name t == some fam) = 0 <;> simp [hc, dget]

/-- The lookup characterisation of `build_families`: a base name is bound iff it
is non-empty and more than one table filters to it, and then it is bound to the
sorted member list. -/
theorem dget_build_families (tables : List String) (fam : String) :
    dget (build_families tables) fam =
      if fam ≠ "" ∧ 1 < (tables.filter (fun t => family_name t == some fam)).length then
        some (sortStr (tables.filter (fun t => family_name t == some fam)))
      else none := by
  by_cases hfam : fam = ""
  · subst hfam
    rw [build_families, dget_mapVal, famGroups, dget_famGroups_aux_empty]
    simp [dget]
  · rw [build_families, dget_mapVal, famGroups,
      dget_famGroups_aux (famCounts tables) tables [] fam hfam,
      getD_famCounts tables fam hfam, ← List.countP_eq_length_filter]
    by_cases hc : 1 < tables.countP (fun t => family_name t == some fam)
    · have hne : tables.filter (fun t => family_name t == some fam) ≠ [] := by
        intro h
        rw [List.countP_eq_length_filter, h] at hc
        simp at hc
      simp [hc, hne, hfam, dget]
    · simp [hc, hfam, dget]

/-! ### Claim C4: the family resolver -/

/-- C4 is false on the code at base names that are empty: `_app` and `_web`
both decompose (last segment in the suffix vocabulary) to the shared base name
`""`, so by the claim the resolver must return the family `"" ↦ [_app, _web]`,
but Python's `if fam:` truthiness drops the empty base and no family is
produced. -/
theorem C4_counterexample :
    family_name "_app" = some "" ∧ family_name "_web" = some "" ∧
    (["_app", "_web"] : List String).countP (fun t => family_name t == some "") = 2 ∧
    build_families ["_app", "_web"] = [] :=
  ⟨by decide, by decide, by decide, by decide⟩

/-- C4 (amended): for every duplicate-free list of table names, the resolver
binds exactly the **non-empty** base names computed by more than one input
table, each to the lexicographically sorted list of its members; a table whose
last segment is a suffix token but whose base name is computed by no other
table (or is empty) is absent from every family. -/
theorem C4_build_families_characterized :
    ∀ (tables : List String), tables.Nodup → ∀ fam : String,
      ((dget (build_families tables) fam).isSome ↔
        fam ≠ "" ∧ 2 ≤ tables.countP (fun t => family_name t == some fam)) ∧
      (∀ l, dget (build_families tables) fam = some l →
        List.Sorted strLeP l ∧ l.Nodup ∧
        ∀ t, t ∈ l ↔ t ∈ tables ∧ family_name t = some fam) ∧
      (∀ t ∈ tables, ∀ f, family_name t = some f →
        tables.countP (fun u => family_name u == some f) ≤ 1 →
        ∀ l, dget (build_families tables) fam = some l → t ∉ l) := by
  intro tables hnd fam
  have hchar := dget_build_families tables fam
  refine ⟨?_, ?_, ?_⟩
  · rw [hchar]
    by_cases hc : fam ≠ "" ∧
        1 < (tables.filter (fun t => family_name t == some fam)).length
    · rw [if_pos hc]
      constructor
      · intro _
        refine ⟨hc.1, ?_⟩
        rw [List.countP_eq_length_filter]
        omega
      · intro _
        rfl
    · rw [if_neg hc]
      constructor
      · intro h
        exact absurd h (by simp)
      · intro h
        exfalso
        refine hc ⟨h.1, ?_⟩
        have h2 := h.2
        rw [List.countP_eq_length_filter] at h2
        omega
  · intro l hl
    rw [hchar] at hl
    by_cases hc : fam ≠ "" ∧
        1 < (tables.filter (fun t => family_name t == some fam)).length
    · rw [if_pos hc] at hl
      cases hl
      refine ⟨sorted_sortStr _, nodup_sortStr (hnd.filter _), ?_⟩
      intro t
      rw [mem_sortStr, List.mem_filter, beq_iff_eq]
    · rw [if_neg hc] at hl
      cases hl
  · intro t _ f hf hcnt l hl
    rw [hchar] at hl
    by_cases hc : fam ≠ "" ∧
        1 < (tables.filter (fun u => family_name u == some fam)).length
    · rw [if_pos hc] at hl
      cases hl
      rw [mem_sortStr, List.mem_filter, beq_iff_eq]
      rintro ⟨-, hf'⟩
      rw [hf] at hf'
      cases hf'
      rw [List.countP_eq_length_filter] at hcnt
      omega
    · rw [if_neg hc] at hl
      cases hl

/-! ### Lookup lemmas for the `normalized_groups` pipeline (C3, C10) -/

theorem dget_ngStep1 (gs : List (String × InputGroup)) (k : String)
    (hnd : (gs.map Prod.fst).Nodup) :
    dget (ngStep1 gs) k = (dget gs k).map
      (fun g => { description := g.description, parent_groups := g.parent_groups,
                  tables := [] }) := by
  cases hk : dget gs k with
  | some g =>
    have hmem := dget_mem hk
    have h := dget_foldl_dset_mem (fun p : String × InputGroup => p.1)
      (fun p => ({ description := p.2.description, parent_groups := p.2.parent_groups,
                   tables := [] } : GroupRec)) gs [] (k, g) hnd hmem
    simpa [ngStep1] using h
  | none =>
    have hk' : k ∉ gs.map Prod.fst := by
      intro hm
      rw [show gs.map Prod.fst = dkeys gs from rfl, mem_dkeys_iff_isSome, hk] at hm
      simp at hm
    rw [ngStep1, dget_foldl_dset_notMem _ _ gs [] k hk']
    rfl

theorem dget_step2_fold_preserved :
    ∀ (gl : List (String × String)) (d : List (String × GroupRec)) (k : String)
      (r : GroupRec), dget d k = some r →
      dget (gl.foldl (fun d' p => if (dget d' p.1).isSome then d'
        else dset d' p.1 { description := p.2, parent_groups := [], tables := [] }) d)
        k = some r := by
  intro gl
  induction gl with
  | nil => intro d k r h; exact h
  | cons p rest ih =>
    intro d k r h
    rw [List.foldl_cons]
    refine ih _ k r ?_
    by_cases hs : (dget d p.1).isSome
    · rw [if_pos hs]
      exact h
    · rw [if_neg hs]
      by_cases hk : p.1 = k
      · subst hk
        rw [h] at hs
        simp at hs
      · rw [dget_dset_ne _ _ _ hk]
        exact h

theorem dget_ngStep2_preserved (d : List (String × GroupRec)) (k : String)
    (r : GroupRec) (h : dget d k = some r) : dget (ngStep2 d) k = some r :=
  dget_step2_fold_preserved GROUP_DESCRIPTIONS d k r h

theorem addTableToGroup_descParents (d : List (String × GroupRec))
    (gname tname g : String) (r : GroupRec) (h : dget d g = some r) :
    ∃ r', dget (addTableToGroup d gname tname) g = some r' ∧
      r'.description = r.description ∧ r'.parent_groups = r.parent_groups := by
  by_cases hg : gname = g
  · subst hg
    simp only [addTableToGroup, h]
    exact ⟨_, dget_dset_self _ _ _, rfl, rfl⟩
  · cases hd : dget d gname with
    | some r0 =>
      simp only [addTableToGroup, hd]
      exact ⟨r, by rw [dget_dset_ne _ _ _ hg]; exact h, rfl, rfl⟩
    | none =>
      simp only [addTableToGroup, hd]
      exact ⟨r, by rw [dget_dset_ne _ _ _ hg]; exact h, rfl, rfl⟩

theorem addFold_descParents (tname : String) :
    ∀ (gl : List String) (d : List (String × GroupRec)) (g : String) (r : GroupRec),
      dget d g = some r →
      ∃ r', dget (gl.foldl (fun d' x => addTableToGroup d' x tname) d) g = some r' ∧
        r'.description = r.description ∧ r'.parent_groups = r.parent_groups := by
  intro gl
  induction gl with
  | nil => intro d g r h; exact ⟨r, h, rfl, rfl⟩
  | cons x rest ih =>
    intro d g r h
    rw [List.foldl_cons]
    obtain ⟨r', h', hd, hp⟩ := addTableToGroup_descParents d x tname g r h
    obtain ⟨r'', h'', hd'', hp''⟩ := ih _ g r' h'
    exact ⟨r'', h'', hd''.trans hd, hp''.trans hp⟩

theorem ngStep3_descParents :
    ∀ (items : List (String × List String)) (d : List (String × GroupRec))
      (g : String) (r : GroupRec), dget d g = some r →
      ∃ r', dget (ngStep3 d items) g = some r' ∧
        r'.description = r.description ∧ r'.parent_groups = r.parent_groups := by
  intro items
  induction items with
  | nil => intro d g r h; exact ⟨r, h, rfl, rfl⟩
  | cons p rest ih =>
    intro d g r h
    simp only [ngStep3, List.foldl_cons] at ih ⊢
    obtain ⟨r', h', hd, hp⟩ := addFold_descParents p.1 p.2 d g r h
    obtain ⟨r'', h'', hd'', hp''⟩ := ih _ g r' h'
    exact ⟨r'', h'', hd''.trans hd, hp''.trans hp⟩

theorem dget_dupdate {α : Type} (d : List (String × α)) (k : String) (f : α → α)
    (g : String) :
    dget (dupdate d k f) g = if g = k then (dget d g).map f else dget d g := by
  induction d with
  | nil => by_cases h : g = k <;> simp [dupdate, dget, h]
  | cons p rest ih =>
    obtain ⟨k₀, v₀⟩ := p
    show dget ((if k₀ = k then (k₀, f v₀) else (k₀, v₀)) :: dupdate rest k f) g = _
    by_cases h₀ : k₀ = k
    · rw [if_pos h₀]
      by_cases hg : k₀ = g
      · subst hg
        subst h₀
        rw [dget, if_pos rfl, dget, if_pos rfl, if_pos rfl]
        rfl
      · rw [dget, if_neg hg, ih]
        have hrw : dget ((k₀, v₀) :: rest) g = dget rest g := by
          rw [dget, if_neg hg]
        rw [hrw]
    · rw [if_neg h₀]
      by_cases hg : k₀ = g
      · subst hg
        have hne : ¬ k₀ = k := h₀
        rw [dget, if_pos rfl, if_neg hne, dget, if_pos rfl]
      · rw [dget, if_neg hg, ih]
        have hrw : dget ((k₀, v₀) :: rest) g = dget rest g := by
          rw [dget, if_neg hg]
        rw [hrw]

theorem dget_ngStep5 (d : List (String × GroupRec)) (g : String) :
    dget (ngStep5 d) g = (dget d g).map (fun r =>
      if g ≠ "AISN" then
        { r with parent_groups := r.parent_groups.filter (· ≠ "AISN") }
      else r) := by
  induction d with
  | nil => simp [ngStep5, dget]
  | cons p rest ih =>
    obtain ⟨k₀, v₀⟩ := p
    show dget ((if k₀ ≠ "AISN" then
        (k₀, { v₀ with parent_groups := v₀.parent_groups.filter (· ≠ "AISN") })
      else (k₀, v₀)) :: ngStep5 rest) g = _
    by_cases hA : k₀ ≠ "AISN"
    · rw [if_pos hA]
      by_cases hg : k₀ = g
      · subst hg
        rw [dget, if_pos rfl, dget, if_pos rfl, Option.map_some']
        rw [if_pos hA]
      · rw [dget, if_neg hg, ih]
        have hrw : dget ((k₀, v₀) :: rest) g = dget rest g := by
          rw [dget, if_neg hg]
        rw [hrw]
    · rw [if_neg hA]
      by_cases hg : k₀ = g
      · subst hg
        rw [dget, if_pos rfl, dget, if_pos rfl, Option.map_some']
        rw [if_neg hA]
      · rw [dget, if_neg hg, ih]
        have hrw : dget ((k₀, v₀) :: rest) g = dget rest g := by
          rw [dget, if_neg hg]
        rw [hrw]

/-! ### Claim C3: canonical group descriptions -/

/-- C3 is false on the code for the flat `group_hierarchy`: a group declared in
the input keeps its declared description there (the canonical dictionary only
seeds groups absent from the input); only the per-domain views replace it. -/
def ctxC3 : ContextData := ⟨[("Patient", ⟨"declared desc", []⟩)], []⟩

theorem C3_counterexample :
    (dget (build_taxonomy ctxC3).group_hierarchy "Patient").map
      (fun r => r.description) = some "declared desc" ∧
    dget GROUP_DESCRIPTIONS "Patient" =
      some "Patient profiles, devices, diagnoses, language, and subscriptions." ∧
    ("declared desc" : String) ≠
      "Patient profiles, devices, diagnoses, language, and subscriptions." :=
  ⟨by decide, by decide, by decide⟩

/-- C3 (amended): the per-domain group views carry the canonical description
whenever one exists for the group name; the flat `group_hierarchy`, however,
retains the input-declared description for every group declared in the input
(canonical descriptions only seed groups absent from the input). -/
theorem C3_canonical_descriptions_amended :
    ∀ (ctx : ContextData),
      (∀ d ∈ (build_taxonomy ctx).domains, ∀ g ∈ d.groups, ∀ c,
        dget GROUP_DESCRIPTIONS g.name = some c → g.description = c) ∧
      ((ctx.groups.map Prod.fst).Nodup →
        ∀ gname gd, dget ctx.groups gname = some gd →
          (dget (build_taxonomy ctx).group_hierarchy gname).map
            (fun r => r.description) = some gd.description) := by
  intro ctx
  constructor
  · intro d hd g hg c hc
    simp only [build_taxonomy, domainsOf, List.mem_map] at hd
    obtain ⟨p, -, rfl⟩ := hd
    simp only [List.mem_map] at hg
    obtain ⟨gname, -, rfl⟩ := hg
    have hname : (buildGroupView (normalizedGroupsOf ctx)
        (miscSubgroupsOf (ungroupedOf (tableToGroups ctx.tables))) gname).name = gname := by
      by_cases hm : gname = "Miscellaneous" <;> simp [buildGroupView, hm]
    rw [hname] at hc
    by_cases hm : gname = "Miscellaneous"
    · subst hm
      simp [buildGroupView, hc]
    · simp [buildGroupView, hm, hc]
  · intro hnd gname gd h
    have h1 : dget (ngStep1 ctx.groups) gname =
        some { description := gd.description, parent_groups := gd.parent_groups,
               tables := [] } := by
      rw [dget_ngStep1 ctx.groups gname hnd, h]
      rfl
    have h2 := dget_ngStep2_preserved _ _ _ h1
    obtain ⟨r3, h3, hd3, -⟩ := ngStep3_descParents (tableToGroups ctx.tables) _ gname _ h2
    have h4 : ∃ r4, dget (ngStep4 (ngStep3 (ngStep2 (ngStep1 ctx.groups))
        (tableToGroups ctx.tables)) (ungroupedOf (tableToGroups ctx.tables))) gname =
          some r4 ∧ r4.description = r3.description := by
      rw [ngStep4, dget_dupdate]
      by_cases hgm : gname = "Miscellaneous"
      · rw [if_pos hgm, h3]
        exact ⟨_, rfl, rfl⟩
      · rw [if_neg hgm]
        exact ⟨r3, h3, rfl⟩
    obtain ⟨r4, h4, hd4⟩ := h4
    have h5 : (dget (normalizedGroupsOf ctx) gname).map (fun r => r.description) =
        some r4.description := by
      rw [normalizedGroupsOf, dget_ngStep5, h4]
      by_cases hA : gname ≠ "AISN" <;> simp [hA]
    simp only [build_taxonomy]
    rw [h5, hd4, hd3]

/-- Witness for C3 (amended): at a snapshot declaring `Patient` with its own
description, the AISN domain view carries the canonical description while
`group_hierarchy` keeps the declared one. -/
theorem C3_witness :
    (⟨"AISN", "AISN clinical trial context (no direct tables).", [], [], []⟩ :
      GroupView).description = "AISN clinical trial context (no direct tables)." ∧
    (dget (build_taxonomy ctxC3).group_hierarchy "Patient").map
      (fun r => r.description) = some "declared desc" :=
  ⟨(C3_canonical_descriptions_amended ctxC3).1
      ⟨"Clinical Trial", "",
        [⟨"AISN", "AISN clinical trial context (no direct tables).", [], [], []⟩]⟩
      (by decide)
      ⟨"AISN", "AISN clinical trial context (no direct tables).", [], [], []⟩
      (by decide) "AISN clinical trial context (no direct tables)." (by decide),
   (C3_canonical_descriptions_amended ctxC3).2 (by decide) "Patient"
      ⟨"declared desc", []⟩ (by decide)⟩

/-- Witness for C4 (amended): a concrete three-table input with one genuine
family and one singleton match. -/
theorem C4_witness :
    List.Sorted strLeP ["session_app", "session_clinic"] ∧
    (["session_app", "session_clinic"] : List String).Nodup ∧
    (∀ t, t ∈ (["session_app", "session_clinic"] : List String) ↔
      t ∈ (["session_app", "session_clinic", "solo_web"] : List String) ∧
        family_name t = some "session") :=
  (C4_build_families_characterized ["session_app", "session_clinic", "solo_web"]
    (by decide) "session").2.1 ["session_app", "session_clinic"] (by decide)

/-- Witness for C1 (amended): at an input containing `session_app` and
`prescription_app`, the generated `session_app → prescription_app` relationship
has both endpoints in the index. -/
theorem C1_witness :
    (dget (build_taxonomy ctxC1w).table_index "session_app").isSome ∧
    (dget (build_taxonomy ctxC1w).table_index "prescription_app").isSome :=
  C1_generated_relationship_endpoints ctxC1w
    ⟨"session_app", "prescription_app", ["prescription_id"], "foreign_key",
      "Each session corresponds to a prescription."⟩ (by decide)

/-! ### Lookup lemmas for the Miscellaneous routing and group table lists (C10) -/

theorem dget_miscFold_aux :
    ∀ (ung : List String) (d0 : List (String × List String)) (b : String),
      dget (ung.foldl (fun d t =>
        dset d (miscBucket t) ((dget d (miscBucket t)).getD [] ++ [t])) d0) b =
      (if ung.filter (fun t => miscBucket t == b) = [] then dget d0 b
       else some ((dget d0 b).getD [] ++ ung.filter (fun t => miscBucket t == b))) := by
  intro ung
  induction ung with
  | nil => intro d0 b; simp
  | cons t rest ih =>
    intro d0 b
    rw [List.foldl_cons]
    by_cases hb : miscBucket t = b
    · subst hb
      have hp : (miscBucket t == miscBucket t) = true := beq_self_eq_true _
      have hflt : (t :: rest).filter (fun u => miscBucket u == miscBucket t) =
          t :: rest.filter (fun u => miscBucket u == miscBucket t) := by
        simp [List.filter_cons, hp]
      rw [hflt, ih _ _, dget_dset_self]
      by_cases hrest : rest.filter (fun u => miscBucket u == miscBucket t) = []
      · rw [if_pos hrest, if_neg (List.cons_ne_nil _ _), hrest]
      · rw [if_neg hrest, if_neg (List.cons_ne_nil _ _)]
        simp only [Option.getD_some]
        rw [List.append_assoc]
        rfl
    · have hne : (miscBucket t == b) = false := beq_eq_false_iff_ne.mpr hb
      have hflt : (t :: rest).filter (fun u => miscBucket u == b) =
          rest.filter (fun u => miscBucket u == b) := by
        simp [List.filter_cons, hne]
      rw [hflt, ih _ _, dget_dset_ne _ _ _ hb]

theorem dget_miscSubgroupsOf (ung : List String) (b : String) :
    dget (miscSubgroupsOf ung) b =
      (if ung.filter (fun t => miscBucket t == b) = [] then none
       else some (sortStr (ung.filter (fun t => miscBucket t == b)))) := by
  rw [miscSubgroupsOf, dget_mapVal, dget_miscFold_aux ung [] b]
  by_cases h : ung.filter (fun t => miscBucket t == b) = [] <;> simp [h, dget]

theorem mem_dset {α : Type} {d : List (String × α)} {k : String} {v : α} {p : String × α}
    (h : p ∈ dset d k v) : p ∈ d ∨ p = (k, v) := by
  induction d with
  | nil => simpa [dset] using h
  | cons q rest ih =>
    obtain ⟨k₀, v₀⟩ := q
    by_cases hk : k₀ = k
    · subst hk
      rw [dset, if_pos rfl] at h
      rw [List.mem_cons] at h
      rcases h with rfl | h
      · exact Or.inr rfl
      · exact Or.inl (List.mem_cons_of_mem _ h)
    · rw [dset, if_neg hk] at h
      rw [List.mem_cons] at h
      rcases h with rfl | h
      · exact Or.inl (List.mem_cons_self _ _)
      · rcases ih h with h' | h'
        · exact Or.inl (List.mem_cons_of_mem _ h')
        · exact Or.inr h'

theorem mem_foldl_dset {α β : Type} (key : α → String) (val : α → β) :
    ∀ (l : List α) (d0 : List (String × β)) (p : String × β),
      p ∈ l.foldl (fun d y => dset d (key y) (val y)) d0 →
      p ∈ d0 ∨ ∃ x ∈ l, p = (key x, val x) := by
  intro l
  induction l with
  | nil => intro d0 p h; exact Or.inl h
  | cons y rest ih =>
    intro d0 p h
    rw [List.foldl_cons] at h
    rcases ih _ p h with h' | ⟨x, hx, rfl⟩
    · rcases mem_dset h' with h'' | rfl
      · exact Or.inl h''
      · exact Or.inr ⟨y, List.mem_cons_self _ _, rfl⟩
    · exact Or.inr ⟨x, List.mem_cons_of_mem _ hx, rfl⟩

/-- Every value stored in `tableToGroups` is duplicate-free. -/
theorem tableToGroups_values_nodup (tables : List InputTable) :
    ∀ p ∈ tableToGroups tables, p.2.Nodup := by
  intro p hp
  rcases mem_foldl_dset (fun t : InputTable => t.table)
      (fun t => resolveGroups t.table t.groups) tables [] p hp with h | ⟨x, -, rfl⟩
  · simp at h
  · exact nodup_sortedSet _

theorem ungroupedOf_eq (t2g : List (String × List String)) :
    ungroupedOf t2g = (t2g.filter (fun p => decide (p.2 = []))).map Prod.fst := by
  induction t2g with
  | nil => rfl
  | cons p rest ih =>
    by_cases h : p.2 = [] <;>
      simp [ungroupedOf, List.filterMap_cons, List.filter_cons, h] <;>
      simpa [ungroupedOf] using ih

theorem nodup_ungroupedOf (tables : List InputTable) :
    (ungroupedOf (tableToGroups tables)).Nodup := by
  rw [ungroupedOf_eq]
  refine List.Nodup.sublist (List.Sublist.map Prod.fst (List.filter_sublist _)) ?_
  exact nodup_dkeys_foldl_dset _ _ tables [] (by simp [dkeys])

/-- Appending a table to one group changes only that group's table list. -/
theorem addTableToGroup_tables_self (d : List (String × GroupRec)) (gname tname : String) :
    (dget (addTableToGroup d gname tname) gname).map (fun r => r.tables) =
      some (((dget d gname).map (fun r => r.tables)).getD [] ++ [tname]) := by
  cases hd : dget d gname with
  | some r => simp only [addTableToGroup, hd]; rw [dget_dset_self]; rfl
  | none => simp only [addTableToGroup, hd]; rw [dget_dset_self]; rfl

theorem addTableToGroup_tables_other (d : List (String × GroupRec))
    (gname tname g : String) (h : gname ≠ g) :
    dget (addTableToGroup d gname tname) g = dget d g := by
  cases hd : dget d gname with
  | some r => simp only [addTableToGroup, hd]; exact dget_dset_ne _ _ _ h
  | none => simp only [addTableToGroup, hd]; exact dget_dset_ne _ _ _ h

theorem addFold_tables (tname : String) :
    ∀ (gl : List String) (d : List (String × GroupRec)) (g : String), gl.Nodup →
      (dget (gl.foldl (fun d' x => addTableToGroup d' x tname) d) g).map
          (fun r => r.tables) =
        (if g ∈ gl then
          some (((dget d g).map (fun r => r.tables)).getD [] ++ [tname])
         else (dget d g).map (fun r => r.tables)) := by
  intro gl
  induction gl with
  | nil => intro d g _; rw [if_neg (List.not_mem_nil g)]; rfl
  | cons x rest ih =>
    intro d g hnd
    rw [List.nodup_cons] at hnd
    rw [List.foldl_cons]
    by_cases hg : g = x
    · subst hg
      rw [ih _ g hnd.2, if_neg hnd.1, if_pos (List.mem_cons_self _ _)]
      exact addTableToGroup_tables_self d g tname
    · rw [ih _ g hnd.2, addTableToGroup_tables_other d x tname g (fun h => hg h.symm)]
      by_cases hr : g ∈ rest
      · rw [if_pos hr, if_pos (List.mem_cons_of_mem _ hr)]
      · rw [if_neg hr, if_neg (by rw [List.mem_cons]; rintro (h | h) <;> [exact hg h; exact hr h])]

theorem ngStep3_tables :
    ∀ (items : List (String × List String)) (d : List (String × GroupRec)) (g : String),
      (∀ p ∈ items, p.2.Nodup) →
      ∀ r, dget (ngStep3 d items) g = some r →
        r.tables = ((dget d g).map (fun r0 => r0.tables)).getD [] ++
          (items.filter (fun p => decide (g ∈ p.2))).map Prod.fst := by
  intro items
  induction items with
  | nil =>
    intro d g _ r h
    rw [ngStep3, List.foldl_nil] at h
    simp [h]
  | cons p rest ih =>
    intro d g hvals r h
    simp only [ngStep3, List.foldl_cons] at h ih
    have hpnd : p.2.Nodup := hvals p (List.mem_cons_self _ _)
    have hrest : ∀ q ∈ rest, q.2.Nodup := fun q hq => hvals q (List.mem_cons_of_mem _ hq)
    have hstep := addFold_tables p.1 p.2 d g hpnd
    have hrec := ih (p.2.foldl (fun d' x => addTableToGroup d' x p.1) d) g hrest r h
    rw [List.filter_cons]
    by_cases hmem : g ∈ p.2
    · have hdec : (decide (g ∈ p.2)) = true := decide_eq_true hmem
      rw [hdec]
      rw [if_pos hmem] at hstep
      rw [hrec, hstep]
      simp only [Option.getD_some, List.map_cons]
      rw [List.append_assoc]
      rfl
    · have hdec : (decide (g ∈ p.2)) = false := decide_eq_false hmem
      rw [hdec]
      rw [if_neg hmem] at hstep
      rw [hrec, hstep, if_neg Bool.false_ne_true]

/-- All records produced by steps 1–2 have empty table lists. -/
theorem ngStep12_tables_empty (gs : List (String × InputGroup)) :
    ∀ k r, dget (ngStep2 (ngStep1 gs)) k = some r → r.tables = [] := by
  have h1 : ∀ k r, dget (ngStep1 gs) k = some r → r.tables = [] := by
    intro k r h
    exact dget_foldl_dset_prop (fun p : String × InputGroup => p.1)
      (fun p => ({ description := p.2.description, parent_groups := p.2.parent_groups,
                   tables := [] } : GroupRec))
      (fun _ v => v.tables = []) gs [] (by intro k' v h'; cases h') (fun _ _ => rfl) k r h
  have h2 : ∀ (gl : List (String × String)) (d : List (String × GroupRec)),
      (∀ k r, dget d k = some r → r.tables = []) →
      ∀ k r, dget (gl.foldl (fun d' p => if (dget d' p.1).isSome then d'
        else dset d' p.1 { description := p.2, parent_groups := [], tables := [] }) d)
          k = some r → r.tables = [] := by
    intro gl
    induction gl with
    | nil => intro d hd k r h; exact hd k r h
    | cons p rest ih =>
      intro d hd k r h
      rw [List.foldl_cons] at h
      refine ih _ ?_ k r h
      intro k' r' h'
      by_cases hs : (dget d p.1).isSome
      · rw [if_pos hs] at h'
        exact hd k' r' h'
      · rw [if_neg hs] at h'
        rw [dget_dset] at h'
        by_cases hk : p.1 = k'
        · rw [if_pos hk] at h'
          cases h'
          rfl
        · rw [if_neg hk] at h'
          exact hd k' r' h'
  intro k r h
  exact h2 GROUP_DESCRIPTIONS (ngStep1 gs) h1 k r h

/-- Every table list stored in the final `normalized_groups` is duplicate-free. -/
theorem normalizedGroups_tables_nodup (ctx : ContextData) :
    ∀ g r, dget (normalizedGroupsOf ctx) g = some r → r.tables.Nodup := by
  intro g r h
  rw [normalizedGroupsOf, dget_ngStep5] at h
  cases h4 : dget (ngStep4 (ngStep3 (ngStep2 (ngStep1 ctx.groups))
      (tableToGroups ctx.tables)) (ungroupedOf (tableToGroups ctx.tables))) g with
  | none => rw [h4] at h; cases h
  | some r4 =>
    rw [h4, Option.map_some'] at h
    have htbl : r.tables = r4.tables := by
      cases h
      by_cases hA : g ≠ "AISN" <;> simp [hA]
    rw [htbl]
    rw [ngStep4, dget_dupdate] at h4
    by_cases hgm : g = "Miscellaneous"
    · rw [if_pos hgm] at h4
      cases h3 : dget (ngStep3 (ngStep2 (ngStep1 ctx.groups)) (tableToGroups ctx.tables))
          "Miscellaneous" with
      | none => rw [hgm, h3] at h4; cases h4
      | some r3 =>
        rw [hgm, h3, Option.map_some'] at h4
        cases h4
        exact nodup_sortStr (nodup_ungroupedOf _)
    · rw [if_neg hgm] at h4
      have := ngStep3_tables (tableToGroups ctx.tables) (ngStep2 (ngStep1 ctx.groups)) g
        (tableToGroups_values_nodup ctx.tables) r4 h4
      rw [this]
      have hpre : ((dget (ngStep2 (ngStep1 ctx.groups)) g).map
          (fun r0 => r0.tables)).getD [] = [] := by
        cases h12 : dget (ngStep2 (ngStep1 ctx.groups)) g with
        | none => rfl
        | some r12 =>
          rw [Option.map_some', Option.getD_some]
          exact ngStep12_tables_empty ctx.groups g r12 h12
      rw [hpre, List.nil_append]
      refine List.Nodup.sublist (List.Sublist.map Prod.fst (List.filter_sublist _)) ?_
      exact nodup_dkeys_foldl_dset _ _ ctx.tables [] (by simp [dkeys])

/-! ### The per-view partition lemma and claim C10 -/

theorem dkeys_mapVal {α β : Type} (d : List (String × α)) (f : α → β) :
    dkeys (d.map (fun p => (p.1, f p.2))) = dkeys d := by
  induction d with
  | nil => rfl
  | cons p rest ih =>
    show (p.1, f p.2).1 :: dkeys (rest.map (fun p => (p.1, f p.2))) = p.1 :: dkeys rest
    rw [ih]

theorem nodup_dkeys_famGroups (counts : List (String × Nat)) :
    ∀ (L : List String) (d0 : List (String × List String)), (dkeys d0).Nodup →
    (dkeys (L.foldl (fun d t =>
      match family_name t with
      | some f =>
        if f ≠ "" ∧ 1 < (dget counts f).getD 0 then
          dset d f ((dget d f).getD [] ++ [t])
        else d
      | none => d) d0)).Nodup := by
  intro L
  induction L with
  | nil => intro d0 h; exact h
  | cons t rest ih =>
    intro d0 h
    rw [List.foldl_cons]
    refine ih _ ?_
    cases hft : family_name t with
    | none => simpa [hft]
    | some f =>
      simp only [hft]
      by_cases hc : f ≠ "" ∧ 1 < (dget counts f).getD 0
      · rw [if_pos hc]
        exact nodup_dkeys_dset _ _ _ h
      · rw [if_neg hc]
        exact h

theorem nodup_dkeys_build_families (L : List String) :
    (dkeys (build_families L)).Nodup := by
  rw [build_families, dkeys_mapVal, famGroups]
  exact nodup_dkeys_famGroups (famCounts L) L [] (by simp [dkeys])

/-- Membership in a family bucket forces membership in the input list and the
right base name. -/
theorem mem_family_bucket {L : List String} {fam t : String}
    (ht : t ∈ (dget (build_families L) fam).getD []) :
    t ∈ L ∧ family_name t = some fam := by
  rw [dget_build_families] at ht
  by_cases hc : fam ≠ "" ∧ 1 < (L.filter (fun u => family_name u == some fam)).length
  · rw [if_pos hc, Option.getD_some, mem_sortStr] at ht
    have h := List.mem_filter.mp ht
    exact ⟨h.1, by simpa using h.2⟩
  · rw [if_neg hc] at ht
    simp at ht

/-- The family views of a duplicate-free table list, together with the
standalone tables, list each table at most once overall. -/
theorem view_partition (L : List String) (hnd : L.Nodup) :
    ((famViewsOf (build_families L)).flatMap (fun f => f.variants) ++
      (L.filter (fun t => !(familyTablesOf (build_families L)).contains t))).Nodup := by
  have hflat : (famViewsOf (build_families L)).flatMap (fun f => f.variants) =
      ((sortStr (dkeys (build_families L))).map
        (fun fam => (dget (build_families L) fam).getD [])).flatten := by
    rw [famViewsOf]
    rw [show ∀ (l : List String) (f : String → FamilyView),
      (l.map f).flatMap (fun v => v.variants) = l.flatMap (fun x => (f x).variants)
      from fun l f => by rw [List.flatMap_map]]
    rfl
  refine List.Nodup.append ?_ (hnd.filter _) ?_
  · rw [hflat, List.nodup_flatten]
    constructor
    · intro l hl
      rw [List.mem_map] at hl
      obtain ⟨fam, -, rfl⟩ := hl
      rw [dget_build_families]
      by_cases hc : fam ≠ "" ∧
          1 < (L.filter (fun u => family_name u == some fam)).length
      · rw [if_pos hc, Option.getD_some]
        exact nodup_sortStr (hnd.filter _)
      · rw [if_neg hc]
        exact List.nodup_nil
    · refine List.Pairwise.map _ (fun a b hab => ?_)
        (nodup_sortStr (nodup_dkeys_build_families L))
      intro t hta htb
      have h1 := (mem_family_bucket hta).2
      have h2 := (mem_family_bucket htb).2
      exact hab (Option.some.inj (h1.symm.trans h2))
  · intro t ht hts
    rw [hflat, List.mem_flatten] at ht
    obtain ⟨l, hl, htl⟩ := ht
    rw [List.mem_map] at hl
    obtain ⟨fam, -, rfl⟩ := hl
    have hmem : t ∈ familyTablesOf (build_families L) := by
      cases hd : dget (build_families L) fam with
      | none => rw [hd] at htl; simp at htl
      | some l =>
        rw [hd, Option.getD_some] at htl
        rw [familyTablesOf, List.mem_flatMap]
        exact ⟨(fam, l), dget_mem hd, htl⟩
    have h2 := (List.mem_filter.mp hts).2
    rw [Bool.not_eq_true'] at h2
    have htrue : (familyTablesOf (build_families L)).contains t = true :=
      List.elem_iff.mpr hmem
    rw [htrue] at h2
    cases h2

/-- C10: in every rendered group view and every Miscellaneous subgroup view,
the family variant lists and the standalone tables list are pairwise disjoint
and duplicate-free, so each table of the view appears exactly once — as a
variant of exactly one family or as a standalone entry, never both. -/
theorem C10_views_partition :
    ∀ (ctx : ContextData), ∀ d ∈ (build_taxonomy ctx).domains, ∀ g ∈ d.groups,
      ((g.table_families.flatMap (fun f => f.variants)) ++
        g.tables.map (fun e => e.table)).Nodup ∧
      ∀ sg ∈ g.subgroups,
        ((sg.table_families.flatMap (fun f => f.variants)) ++
          sg.tables.map (fun e => e.table)).Nodup := by
  intro ctx d hd g hg
  simp only [build_taxonomy, domainsOf, List.mem_map] at hd
  obtain ⟨p, -, rfl⟩ := hd
  simp only [List.mem_map] at hg
  obtain ⟨gname, -, rfl⟩ := hg
  have hentries : ∀ (ts : List String),
      (tableEntriesOf ts).map (fun e => e.table) = ts := by
    intro ts
    simp [tableEntriesOf, List.map_map, Function.comp_def]
  have hL : ∀ gn : String,
      (sortStr (((dget (normalizedGroupsOf ctx) gn).map (fun r => r.tables)).getD [])).Nodup := by
    intro gn
    cases hr : dget (normalizedGroupsOf ctx) gn with
    | none => simp [sortStr]
    | some r =>
      simp only [Option.map_some', Option.getD_some]
      exact nodup_sortStr (normalizedGroups_tables_nodup ctx gn r hr)
  by_cases hm : gname = "Miscellaneous"
  · constructor
    · simp [buildGroupView, hm]
    · intro sg hsg
      simp only [buildGroupView, hm] at hsg
      obtain ⟨bucket, -, rfl⟩ := List.mem_map.mp hsg
      simp only
      rw [hentries]
      have hbt : ((dget (miscSubgroupsOf (ungroupedOf (tableToGroups ctx.tables)))
          bucket).getD []).Nodup := by
        rw [dget_miscSubgroupsOf]
        by_cases hc : (ungroupedOf (tableToGroups ctx.tables)).filter
            (fun t => miscBucket t == bucket) = []
        · rw [if_pos hc]
          exact List.nodup_nil
        · rw [if_neg hc, Option.getD_some]
          exact nodup_sortStr ((nodup_ungroupedOf ctx.tables).filter _)
      exact view_partition _ hbt
  · constructor
    · simp only [buildGroupView, if_neg hm]
      rw [hentries]
      exact view_partition _ (hL gname)
    · intro sg hsg
      simp only [buildGroupView, if_neg hm] at hsg
      cases hsg

def ctxC10w : ContextData :=
  ⟨[], [⟨"session_app", "", [], []⟩, ⟨"session_clinic", "", [], []⟩,
        ⟨"solo", "", [], []⟩]⟩

def otherSubgroupC10w : SubgroupView :=
  ⟨"Other", "Miscellaneous tables that do not fit other subgroups.",
   [⟨"session", "Session", ["session_app", "session_clinic"]⟩],
   [⟨"solo", "Solo", ""⟩]⟩

def miscGroupC10w : GroupView :=
  ⟨"Miscellaneous", "Ungrouped or uncategorized tables.", [], [], [otherSubgroupC10w]⟩

def miscDomainC10w : DomainView := ⟨"Miscellaneous", "", [miscGroupC10w]⟩

/-- Witness for C10 at a three-table input whose Miscellaneous `Other`
subgroup holds one family and one standalone table. -/
theorem C10_witness :
    ((otherSubgroupC10w.table_families.flatMap (fun f => f.variants)) ++
      otherSubgroupC10w.tables.map (fun e => e.table)).Nodup :=
  (C10_views_partition ctxC10w miscDomainC10w (by decide) miscGroupC10w
    (by decide)).2 otherSubgroupC10w (by decide)

/-! ### Token machinery for the similarity scorer (C9) -/

theorem keepC_space : keepC ' ' = false := by decide

theorem keep_ne_space {c : Char} (h : keepC c = true) : (c == ' ') = false := by
  cases hc : c == ' '
  · rfl
  · have : c = ' ' := eq_of_beq hc
    rw [this, keepC_space] at h
    cases h

theorem lowerC_space : lowerC ' ' = ' ' := by decide

theorem lowerC_of_keep {c : Char} (h : keepC c = true) : lowerC c = c := by
  rw [lowerC, if_neg]
  rintro ⟨h1, h2⟩
  rw [keepC] at h
  rcases (Bool.or_eq_true _ _).mp h with h' | h'
  · have ha : 'a' ≤ c := of_decide_eq_true ((Bool.and_eq_true _ _).mp h').1
    exact absurd (le_trans ha h2) (by decide)
  · have ha : c ≤ '9' := of_decide_eq_true ((Bool.and_eq_true _ _).mp h').2
    exact absurd (le_trans h1 ha) (by decide)

/-- A non-empty accumulator always yields at least one run. -/
theorem runsAux_ne_nil (p : Char → Bool) :
    ∀ (s acc : List Char), acc ≠ [] → runsAux p s acc ≠ [] := by
  intro s
  induction s with
  | nil =>
    intro acc h
    simp only [runsAux]
    rw [if_neg h]
    exact List.cons_ne_nil _ _
  | cons c rest ih =>
    intro acc h
    simp only [runsAux]
    by_cases hp : p c = true
    · rw [if_pos hp]
      exact ih _ (List.cons_ne_nil _ _)
    · rw [if_neg hp, if_neg h]
      exact List.cons_ne_nil _ _

/-- Runs after an all-failing block: the block contributes nothing. -/
theorem runsAux_append_fails (p : Char → Bool) (b : List Char)
    (hb : ∀ c ∈ b, p c = false) :
    ∀ (a acc : List Char), runsAux p (a ++ b) acc = runsAux p a acc := by
  have hbase : ∀ (b' : List Char), (∀ c ∈ b', p c = false) → ∀ acc,
      runsAux p b' acc = if acc = [] then [] else [acc.reverse] := by
    intro b'
    induction b' with
    | nil => intro _ acc; simp only [runsAux]
    | cons c rest ih =>
      intro hb' acc
      have hc : p c = false := hb' c (List.mem_cons_self _ _)
      have hrest : ∀ c ∈ rest, p c = false := fun x hx => hb' x (List.mem_cons_of_mem _ hx)
      simp only [runsAux]
      rw [hc, if_neg Bool.false_ne_true]
      by_cases hacc : acc = []
      · rw [if_pos hacc, if_pos hacc, ih hrest, if_pos rfl]
      · rw [if_neg hacc, if_neg hacc, ih hrest, if_pos rfl]
  intro a
  induction a with
  | nil =>
    intro acc
    rw [List.nil_append, hbase b hb acc]
    simp only [runsAux]
  | cons c rest ih =>
    intro acc
    rw [List.cons_append]
    simp only [runsAux]
    by_cases hp : p c = true
    · rw [if_pos hp, if_pos hp, ih]
    · rw [if_neg hp, if_neg hp]
      by_cases hacc : acc = []
      · rw [if_pos hacc, if_pos hacc, ih]
      · rw [if_neg hacc, if_neg hacc, ih]

/-- Runs of a separator-split list: the runs on each side, concatenated. -/
theorem runsAux_append_sep (p : Char → Bool) (sep : Char) (hsep : p sep = false)
    (b : List Char) :
    ∀ (a acc : List Char),
      runsAux p (a ++ sep :: b) acc = runsAux p a acc ++ runsAux p b [] := by
  intro a
  induction a with
  | nil =>
    intro acc
    rw [List.nil_append]
    simp only [runsAux]
    rw [hsep, if_neg Bool.false_ne_true]
    by_cases hacc : acc = []
    · rw [if_pos hacc, if_pos hacc, List.nil_append]
    · rw [if_neg hacc, if_neg hacc, List.singleton_append]
  | cons c rest ih =>
    intro acc
    rw [List.cons_append]
    simp only [runsAux]
    by_cases hp : p c = true
    · rw [if_pos hp, if_pos hp, ih]
    · rw [if_neg hp, if_neg hp]
      by_cases hacc : acc = []
      · rw [if_pos hacc, if_pos hacc, ih]
      · rw [if_neg hacc, if_neg hacc, ih, List.cons_append]

/-- Runs only depend on the predicate values on the list. -/
theorem runsAux_congr {p q : Char → Bool} :
    ∀ (s : List Char), (∀ c ∈ s, p c = q c) →
      ∀ acc, runsAux p s acc = runsAux q s acc := by
  intro s
  induction s with
  | nil => intro _ acc; simp only [runsAux]
  | cons c rest ih =>
    intro hs acc
    have hc : p c = q c := hs c (List.mem_cons_self _ _)
    have hrest : ∀ x ∈ rest, p x = q x := fun x hx => hs x (List.mem_cons_of_mem _ hx)
    simp only [runsAux]
    rw [← hc]
    by_cases hp : p c = true
    · rw [if_pos hp, if_pos hp, ih hrest]
    · rw [if_neg hp, if_neg hp]
      by_cases hacc : acc = []
      · rw [if_pos hacc, if_pos hacc, ih hrest]
      · rw [if_neg hacc, if_neg hacc, ih hrest]

/-- Splitting on spaces ignores stripped leading/trailing spaces. -/
theorem splitSp_stripSp (x : List Char) : splitSp (stripSp x) = splitSp x := by
  have hlead : ∀ (b a : List Char), (∀ c ∈ b, (c == ' ') = true) →
      runsAux (fun c => !(c == ' ')) (b ++ a) [] =
        runsAux (fun c => !(c == ' ')) a [] := by
    intro b
    induction b with
    | nil => intro a _; rw [List.nil_append]
    | cons c rest ih =>
      intro a hb
      have hc : (c == ' ') = true := hb c (List.mem_cons_self _ _)
      rw [List.cons_append]
      simp only [runsAux, hc]
      exact ih a (fun x hx => hb x (List.mem_cons_of_mem _ hx))
  have hlead1 : splitSp (x.dropWhile (· == ' ')) = splitSp x := by
    have hx : x.takeWhile (· == ' ') ++ x.dropWhile (· == ' ') = x :=
      List.takeWhile_append_dropWhile _ _
    conv_rhs => rw [← hx]
    exact (hlead _ _ (fun c hc => by
      have h := List.mem_takeWhile_imp hc
      exact h)).symm
  have hy1split : x.dropWhile (· == ' ') =
      stripSp x ++ ((x.dropWhile (· == ' ')).reverse.takeWhile (· == ' ')).reverse := by
    have h := List.takeWhile_append_dropWhile (· == ' ') (x.dropWhile (· == ' ')).reverse
    have h2 := congrArg List.reverse h
    rw [List.reverse_append, List.reverse_reverse] at h2
    rw [stripSp]
    exact h2.symm
  have htrail : splitSp (x.dropWhile (· == ' ')) = splitSp (stripSp x) := by
    rw [splitSp, splitSp, hy1split]
    rw [runsAux_append_fails (fun c => !(c == ' ')) _ ?_]
    intro c hc
    rw [List.mem_reverse] at hc
    have hc' := List.mem_takeWhile_imp hc
    show (!(c == ' ')) = false
    rw [show (c == ' ') = true from hc']
    rfl
  rw [← htrail, hlead1]

/-- The collapsed string splits on spaces exactly as the original splits into
maximal alphanumeric runs. -/
theorem splitSp_collapseRun (u : List Char) :
    (∀ acc, runsAux (fun c => !(c == ' ')) (collapseRun u false) acc =
      runsAux keepC u acc) ∧
    runsAux (fun c => !(c == ' ')) (collapseRun u true) [] = runsAux keepC u [] := by
  induction u with
  | nil => exact ⟨fun acc => rfl, rfl⟩
  | cons c rest ih =>
    have hiter : ∀ acc, keepC c = true →
        runsAux (fun x => !(x == ' ')) (c :: collapseRun rest false) acc =
          runsAux keepC (c :: rest) acc := by
      intro acc hk
      simp only [runsAux]
      rw [if_pos (show (!(c == ' ')) = true by rw [keep_ne_space hk]; rfl), if_pos hk]
      exact ih.1 _
    have hspace : ∀ acc, ¬ keepC c = true →
        runsAux (fun x => !(x == ' ')) (' ' :: collapseRun rest true) acc =
          runsAux keepC (c :: rest) acc := by
      intro acc hk
      simp only [runsAux]
      rw [if_neg (show ¬ (!((' ' : Char) == ' ')) = true by decide), if_neg hk]
      by_cases hacc : acc = []
      · rw [if_pos hacc, if_pos hacc]
        exact ih.2
      · rw [if_neg hacc, if_neg hacc, ih.2]
    constructor
    · intro acc
      by_cases hk : keepC c = true
      · rw [show collapseRun (c :: rest) false = c :: collapseRun rest false from by
          simp only [collapseRun]
          rw [if_pos hk]]
        exact hiter acc hk
      · rw [show collapseRun (c :: rest) false = ' ' :: collapseRun rest true from by
          simp only [collapseRun]
          rw [if_neg hk]]
        exact hspace acc hk
    · by_cases hk : keepC c = true
      · rw [show collapseRun (c :: rest) true = c :: collapseRun rest false from by
          simp only [collapseRun]
          rw [if_pos hk]]
        exact hiter [] hk
      · rw [show collapseRun (c :: rest) true = collapseRun rest true from by
          simp only [collapseRun]
          rw [if_neg hk]]
        have hrhs : runsAux keepC (c :: rest) [] = runsAux keepC rest [] := by
          simp only [runsAux]
          rw [if_neg hk, if_pos trivial]
        rw [hrhs]
        exact ih.2

theorem tokens_eq_runs (s : List Char) :
    splitSp (normalizeL s) = runsAux keepC (lowerL s) [] := by
  rw [normalizeL]
  rw [show splitSp (stripSp (collapseNon (lowerL s))) = splitSp (collapseNon (lowerL s))
    from splitSp_stripSp _]
  rw [splitSp, collapseNon]
  exact (splitSp_collapseRun (lowerL s)).1 []

/-! ### Character-set facts about normalisation (C9) -/

theorem bool_eq_false {b : Bool} (h : ¬ b = true) : b = false := by
  cases b
  · rfl
  · exact absurd rfl h

theorem mem_collapseRun : ∀ (u : List Char) (b : Bool) (c : Char),
    c ∈ collapseRun u b → (c ∈ u ∧ keepC c = true) ∨ c = ' ' := by
  intro u
  induction u with
  | nil =>
    intro b c h
    cases b <;> simp [collapseRun] at h
  | cons x rest ih =>
    intro b c h
    have hkeep : keepC x = true →
        c ∈ x :: collapseRun rest false → (c ∈ x :: rest ∧ keepC c = true) ∨ c = ' ' := by
      intro hk hc
      rw [List.mem_cons] at hc
      rcases hc with rfl | hc
      · exact Or.inl ⟨List.mem_cons_self _ _, hk⟩
      · rcases ih false c hc with ⟨h1, h2⟩ | h1
        · exact Or.inl ⟨List.mem_cons_of_mem _ h1, h2⟩
        · exact Or.inr h1
    cases b
    · simp only [collapseRun] at h
      by_cases hk : keepC x = true
      · rw [if_pos hk] at h
        exact hkeep hk h
      · rw [if_neg hk] at h
        rw [List.mem_cons] at h
        rcases h with rfl | h
        · exact Or.inr rfl
        · rcases ih true c h with ⟨h1, h2⟩ | h1
          · exact Or.inl ⟨List.mem_cons_of_mem _ h1, h2⟩
          · exact Or.inr h1
    · simp only [collapseRun] at h
      by_cases hk : keepC x = true
      · rw [if_pos hk] at h
        exact hkeep hk h
      · rw [if_neg hk] at h
        rcases ih true c h with ⟨h1, h2⟩ | h1
        · exact Or.inl ⟨List.mem_cons_of_mem _ h1, h2⟩
        · exact Or.inr h1

theorem mem_stripSp {s : List Char} {c : Char} (h : c ∈ stripSp s) : c ∈ s := by
  rw [stripSp, List.mem_reverse] at h
  have h1 : c ∈ (s.dropWhile (· == ' ')).reverse := (List.dropWhile_sublist _).subset h
  rw [List.mem_reverse] at h1
  exact (List.dropWhile_sublist _).subset h1

theorem mem_normalizeL {s : List Char} {c : Char} (h : c ∈ normalizeL s) :
    keepC c = true ∨ c = ' ' := by
  rw [normalizeL] at h
  rcases mem_collapseRun _ false c (mem_stripSp h) with ⟨-, hk⟩ | hsp
  · exact Or.inl hk
  · exact Or.inr hsp

theorem lowerL_fixes : ∀ (l : List Char), (∀ c ∈ l, keepC c = true ∨ c = ' ') →
    lowerL l = l := by
  intro l
  induction l with
  | nil => intro _; rfl
  | cons c rest ih =>
    intro h
    have hc := h c (List.mem_cons_self _ _)
    have hrest := ih (fun x hx => h x (List.mem_cons_of_mem _ hx))
    rw [lowerL, List.map_cons]
    rw [lowerL] at hrest
    rw [hrest]
    rcases hc with hk | rfl
    · rw [lowerC_of_keep hk]
    · rw [lowerC_space]

theorem runsAux_keep_nil_iff : ∀ (u : List Char),
    runsAux keepC u [] = [] ↔ ∀ c ∈ u, keepC c = false := by
  intro u
  induction u with
  | nil => simp [runsAux]
  | cons c rest ih =>
    simp only [runsAux]
    by_cases hk : keepC c = true
    · rw [if_pos hk]
      constructor
      · intro h
        exact absurd h (runsAux_ne_nil keepC rest [c] (List.cons_ne_nil _ _))
      · intro h
        rw [h c (List.mem_cons_self _ _)] at hk
        cases hk
    · rw [if_neg hk, if_pos trivial]
      constructor
      · intro h x hx
        rw [List.mem_cons] at hx
        rcases hx with rfl | hx
        · exact bool_eq_false hk
        · exact (ih.mp h) x hx
      · intro h
        exact ih.mpr (fun x hx => h x (List.mem_cons_of_mem _ hx))

theorem stripSp_all_space : ∀ (y : List Char), (∀ c ∈ y, c = ' ') → stripSp y = [] := by
  intro y h
  rw [stripSp]
  have hdw : y.dropWhile (· == ' ') = [] := by
    rw [List.dropWhile_eq_nil_iff]
    intro x hx
    rw [h x hx]
    rfl
  rw [hdw]
  rfl

theorem tokens_ne_nil_of_normalize_ne_nil {s : List Char} (h : normalizeL s ≠ []) :
    splitSp (normalizeL s) ≠ [] := by
  rw [tokens_eq_runs]
  intro hnil
  apply h
  have hall := (runsAux_keep_nil_iff (lowerL s)).mp hnil
  have hsp : ∀ c ∈ collapseNon (lowerL s), c = ' ' := by
    intro c hc
    rcases mem_collapseRun _ false c hc with ⟨hcu, hk⟩ | hsp
    · rw [hall c hcu] at hk
      cases hk
    · exact hsp
  rw [normalizeL]
  exact stripSp_all_space _ hsp

/-! ### Bounds for the sequence-matcher model (C9) -/

theorem foldl_inv {α β : Type} (C : β → Prop) (op : β → α → β) :
    ∀ (l : List α) (init : β), C init → (∀ b x, C b → x ∈ l → C (op b x)) →
      C (l.foldl op init) := by
  intro l
  induction l with
  | nil => intro init h _; exact h
  | cons x rest ih =>
    intro init h hstep
    rw [List.foldl_cons]
    exact ih _ (hstep init x h (List.mem_cons_self _ _))
      (fun b y hb hy => hstep b y hb (List.mem_cons_of_mem _ hy))

theorem cpl_le_left : ∀ (a b : List Char), cpl a b ≤ a.length := by
  intro a
  induction a with
  | nil => intro b; cases b <;> simp [cpl]
  | cons x xs ih =>
    intro b
    cases b with
    | nil => simp [cpl]
    | cons y ys =>
      simp only [cpl, List.length_cons]
      by_cases h : x = y
      · rw [if_pos h]
        exact Nat.succ_le_succ (ih ys)
      · rw [if_neg h]
        exact Nat.zero_le _

theorem cpl_le_right : ∀ (a b : List Char), cpl a b ≤ b.length := by
  intro a
  induction a with
  | nil => intro b; cases b <;> simp [cpl]
  | cons x xs ih =>
    intro b
    cases b with
    | nil => simp [cpl]
    | cons y ys =>
      simp only [cpl, List.length_cons]
      by_cases h : x = y
      · rw [if_pos h]
        exact Nat.succ_le_succ (ih ys)
      · rw [if_neg h]
        exact Nat.zero_le _

theorem flm_bounds (a b : List Char) :
    (flm a b).1 + (flm a b).2.2 ≤ a.length ∧ (flm a b).2.1 + (flm a b).2.2 ≤ b.length := by
  rw [flm]
  refine foldl_inv
    (fun best : Nat × Nat × Nat =>
      best.1 + best.2.2 ≤ a.length ∧ best.2.1 + best.2.2 ≤ b.length)
    _ _ _ (by simp) ?_
  intro best i hbest hi
  refine foldl_inv
    (fun best : Nat × Nat × Nat =>
      best.1 + best.2.2 ≤ a.length ∧ best.2.1 + best.2.2 ≤ b.length)
    _ _ _ hbest ?_
  intro best' j hbest' hj
  dsimp only
  by_cases hlt : best'.2.2 < cpl (a.drop i) (b.drop j)
  · rw [if_pos hlt]
    have h1 := cpl_le_left (a.drop i) (b.drop j)
    have h2 := cpl_le_right (a.drop i) (b.drop j)
    rw [List.length_drop] at h1
    rw [List.length_drop] at h2
    have hi' : i < a.length := List.mem_range.mp hi
    have hj' : j < b.length := List.mem_range.mp hj
    constructor
    · show i + cpl (a.drop i) (b.drop j) ≤ a.length
      omega
    · show j + cpl (a.drop i) (b.drop j) ≤ b.length
      omega
  · rw [if_neg hlt]
    exact hbest'

theorem matchSizeF_le : ∀ (fuel : Nat) (a b : List Char),
    matchSizeF fuel a b ≤ a.length ∧ matchSizeF fuel a b ≤ b.length := by
  intro fuel
  induction fuel with
  | zero =>
    intro a b
    constructor <;> simp [matchSizeF]
  | succ n ih =>
    intro a b
    simp only [matchSizeF]
    by_cases h0 : (flm a b).2.2 = 0
    · rw [if_pos h0]
      constructor <;> exact Nat.zero_le _
    · rw [if_neg h0]
      have hb := flm_bounds a b
      have h1 := ih (a.take (flm a b).1) (b.take (flm a b).2.1)
      have h2 := ih (a.drop ((flm a b).1 + (flm a b).2.2))
        (b.drop ((flm a b).2.1 + (flm a b).2.2))
      have h1a := le_trans h1.1
        (show (a.take (flm a b).1).length ≤ (flm a b).1 by
          rw [List.length_take]; exact min_le_left _ _)
      have h1b := le_trans h1.2
        (show (b.take (flm a b).2.1).length ≤ (flm a b).2.1 by
          rw [List.length_take]; exact min_le_left _ _)
      have h2a := h2.1
      have h2b := h2.2
      rw [List.length_drop] at h2a
      rw [List.length_drop] at h2b
      constructor <;> omega

theorem matchSize_le (a b : List Char) :
    matchSize a b ≤ a.length ∧ matchSize a b ≤ b.length :=
  matchSizeF_le (a.length + b.length) a b

theorem ratioQ_nonneg (a b : List Char) : 0 ≤ ratioQ a b := by
  rw [ratioQ]
  by_cases h : a.length + b.length = 0
  · rw [if_pos h]
    norm_num
  · rw [if_neg h]
    positivity

theorem ratioQ_le_one (a b : List Char) : ratioQ a b ≤ 1 := by
  rw [ratioQ]
  by_cases h : a.length + b.length = 0
  · rw [if_pos h]
  · rw [if_neg h]
    have hpos : (0 : ℚ) < ((a.length + b.length : Nat) : ℚ) := by
      exact_mod_cast Nat.pos_of_ne_zero h
    rw [div_le_one hpos]
    have hM := matchSize_le a b
    have hnat : 2 * matchSize a b ≤ a.length + b.length := by omega
    calc 2 * (matchSize a b : ℚ) = ((2 * matchSize a b : Nat) : ℚ) := by push_cast; ring
      _ ≤ ((a.length + b.length : Nat) : ℚ) := by exact_mod_cast hnat

/-! ### Bounds and exact values of the similarity score (C9) -/

theorem fuzzyL_nonneg (q t : List Char) : 0 ≤ fuzzyL q t := by
  simp only [fuzzyL]
  by_cases h1 : q = [] ∨ t = []
  · rw [if_pos h1]
  · rw [if_neg h1]
    by_cases h2 : normalizeL q = [] ∨ normalizeL t = []
    · rw [if_pos h2]
    · rw [if_neg h2]
      exact le_trans (ratioQ_nonneg (normalizeL q) (normalizeL t)) (le_max_left _ _)

theorem fuzzyL_le_one (q t : List Char) : fuzzyL q t ≤ 1 := by
  simp only [fuzzyL]
  by_cases h1 : q = [] ∨ t = []
  · rw [if_pos h1]
    norm_num
  · rw [if_neg h1]
    by_cases h2 : normalizeL q = [] ∨ normalizeL t = []
    · rw [if_pos h2]
      norm_num
    · rw [if_neg h2]
      have hden : (0 : ℚ) < ((max 1 (splitSp (normalizeL q)).dedup.length : Nat) : ℚ) := by
        exact_mod_cast lt_of_lt_of_le Nat.zero_lt_one (le_max_left 1 _)
      have hov : ((((splitSp (normalizeL q)).dedup.filter
          (fun w => decide (w ∈ (splitSp (normalizeL t)).dedup))).length : ℚ) /
          ((max 1 (splitSp (normalizeL q)).dedup.length : Nat) : ℚ)) ≤ 1 := by
        rw [div_le_one hden]
        exact_mod_cast le_trans (List.length_filter_le _ _) (le_max_right 1 _)
      exact max_le (ratioQ_le_one _ _) (max_le (ratioQ_le_one _ _) hov)

theorem fuzzyL_eq_one_of_tokens_subset {q t : List Char} (hq : q ≠ []) (ht : t ≠ [])
    (hqn : normalizeL q ≠ []) (htn : normalizeL t ≠ [])
    (hsub : ∀ w ∈ splitSp (normalizeL q), w ∈ splitSp (normalizeL t)) :
    fuzzyL q t = 1 := by
  have hqtok : splitSp (normalizeL q) ≠ [] := tokens_ne_nil_of_normalize_ne_nil hqn
  have hlen : 1 ≤ (splitSp (normalizeL q)).dedup.length := by
    have hne : (splitSp (normalizeL q)).dedup ≠ [] := by
      rw [Ne, List.dedup_eq_nil]
      exact hqtok
    exact List.length_pos.mpr hne
  have hall : (splitSp (normalizeL q)).dedup.filter
      (fun w => decide (w ∈ (splitSp (normalizeL t)).dedup)) =
      (splitSp (normalizeL q)).dedup := by
    rw [List.filter_eq_self]
    intro w hw
    rw [decide_eq_true_eq, List.mem_dedup]
    exact hsub w (List.mem_dedup.mp hw)
  have hover : ((((splitSp (normalizeL q)).dedup.filter
      (fun w => decide (w ∈ (splitSp (normalizeL t)).dedup))).length : ℚ) /
      ((max 1 (splitSp (normalizeL q)).dedup.length : Nat) : ℚ)) = 1 := by
    rw [hall, max_eq_right hlen]
    rw [div_self (by exact_mod_cast Nat.one_le_iff_ne_zero.mp hlen)]
  simp only [fuzzyL]
  rw [if_neg (not_or.mpr ⟨hq, ht⟩), if_neg (not_or.mpr ⟨hqn, htn⟩)]
  apply le_antisymm
  · exact max_le (ratioQ_le_one _ _) (max_le (ratioQ_le_one _ _) (le_of_eq hover))
  · calc (1 : ℚ) = _ := hover.symm
      _ ≤ max (ratioQ (compactL q) (compactL t)) _ := le_max_right _ _
      _ ≤ _ := le_max_right _ _

theorem fuzzyL_self {q : List Char} (hqn : normalizeL q ≠ []) : fuzzyL q q = 1 := by
  have hq : q ≠ [] := by
    intro h
    rw [h] at hqn
    exact hqn rfl
  exact fuzzyL_eq_one_of_tokens_subset hq hq hqn hqn (fun w hw => hw)

theorem tokens_extend (t q : List Char) :
    splitSp (normalizeL (t ++ ' ' :: normalizeL q)) =
      splitSp (normalizeL t) ++ splitSp (normalizeL q) := by
  rw [tokens_eq_runs, lowerL, List.map_append, List.map_cons, lowerC_space]
  rw [show (normalizeL q).map lowerC = normalizeL q from by
    have h := lowerL_fixes (normalizeL q) (fun c hc => mem_normalizeL hc)
    rw [lowerL] at h
    exact h]
  rw [runsAux_append_sep keepC ' ' keepC_space]
  rw [show (List.map lowerC t : List (Char)) = lowerL t from rfl]
  rw [← tokens_eq_runs]
  congr 1
  show runsAux keepC (normalizeL q) [] =
    runsAux (fun c => !(c == ' ')) (normalizeL q) []
  refine runsAux_congr _ (fun c hc => ?_) []
  rcases mem_normalizeL hc with hk | rfl
  · rw [hk, keep_ne_space hk]
    rfl
  · decide

theorem fuzzyL_extend {q : List Char} (t : List Char) (hqn : normalizeL q ≠ []) :
    fuzzyL q (t ++ ' ' :: normalizeL q) = 1 := by
  have hq : q ≠ [] := by
    intro h
    rw [h] at hqn
    exact hqn rfl
  have ht' : t ++ ' ' :: normalizeL q ≠ [] := by
    intro h
    have hlen := congrArg List.length h
    simp at hlen
  have hqtok := tokens_ne_nil_of_normalize_ne_nil hqn
  have htok := tokens_extend t q
  have htn' : normalizeL (t ++ ' ' :: normalizeL q) ≠ [] := by
    intro h
    apply hqtok
    have hnil : splitSp (normalizeL (t ++ ' ' :: normalizeL q)) = [] := by
      rw [h]
      rfl
    rw [htok] at hnil
    exact (List.append_eq_nil.mp hnil).2
  refine fuzzyL_eq_one_of_tokens_subset hq ht' hqn htn' ?_
  intro w hw
  rw [htok, List.mem_append]
  exact Or.inr hw

theorem fuzzyL_of_qnorm_nil {q : List Char} (h : normalizeL q = []) (t : List Char) :
    fuzzyL q t = 0 := by
  simp only [fuzzyL]
  by_cases h1 : q = [] ∨ t = []
  · rw [if_pos h1]
  · rw [if_neg h1, if_pos (Or.inl h)]

/-! ### Claim C9: score monotonicity and identity -/

/-- C9: extending a text with a verbatim repetition of the query's normalized
tokens (the normalized query, which is exactly its tokens joined by spaces)
never decreases the similarity score, and a query with non-empty normalization
scores exactly 1 against itself; `fuzzy_score` is the maximum of the two
sequence ratios and the token-overlap signal. -/
theorem C9_similarity_monotonicity_and_identity :
    (∀ q t : String, fuzzy_score q t ≤ fuzzy_score q (extendWithQueryTokens t q)) ∧
    (∀ q : String, normalizeL q.data ≠ [] → fuzzy_score q q = 1) := by
  constructor
  · intro q t
    by_cases hqn : normalizeL q.data = []
    · rw [fuzzy_score, fuzzy_score, fuzzyL_of_qnorm_nil hqn, fuzzyL_of_qnorm_nil hqn]
    · have hdata : (extendWithQueryTokens t q).data =
          t.data ++ ' ' :: normalizeL q.data := by
        rw [extendWithQueryTokens, String.data_append, String.data_append,
          List.append_assoc]
        rfl
      rw [fuzzy_score, fuzzy_score, hdata, fuzzyL_extend t.data hqn]
      exact fuzzyL_le_one _ _
  · intro q hqn
    rw [fuzzy_score]
    exact fuzzyL_self hqn

/-- Witness for C9: the identity conjunct applied at a concrete query. -/
theorem C9_witness :
    normalizeL ("delta dm".data) ≠ [] ∧ fuzzy_score "delta dm" "delta dm" = 1 :=
  ⟨by decide, C9_similarity_monotonicity_and_identity.2 "delta dm" (by decide)⟩

/-! ### The search pipeline (C6) -/

theorem foldr_max_le {c : ℚ} (hc : 0 ≤ c) :
    ∀ (l : List ℚ), (∀ x ∈ l, x ≤ c) → l.foldr max 0 ≤ c := by
  intro l
  induction l with
  | nil => intro _; exact hc
  | cons x rest ih =>
    intro h
    rw [List.foldr_cons]
    exact max_le (h x (List.mem_cons_self _ _))
      (ih (fun y hy => h y (List.mem_cons_of_mem _ hy)))

theorem foldr_max_perm {l₁ l₂ : List ℚ} (h : l₁.Perm l₂) :
    l₁.foldr max 0 = l₂.foldr max 0 := by
  induction h with
  | nil => rfl
  | cons x _ ih => rw [List.foldr_cons, List.foldr_cons, ih]
  | swap x y l =>
    rw [List.foldr_cons, List.foldr_cons, List.foldr_cons, List.foldr_cons, max_left_comm]
  | trans _ _ ih1 ih2 => rw [ih1, ih2]

theorem head_sorted_desc {α : Type} (f : α → ℚ) :
    ∀ (s : List α), s.Sorted (descRel f) → (∀ x ∈ s, 0 ≤ f x) →
      ((s.head?.map f).getD 0) = (s.map f).foldr max 0 := by
  intro s hs hnn
  cases s with
  | nil => rfl
  | cons x rest =>
    have hbound : ∀ y ∈ rest, f y ≤ f x :=
      fun y hy => (List.sorted_cons.mp hs).1 y hy
    have hle : (rest.map f).foldr max 0 ≤ f x := by
      refine foldr_max_le (hnn x (List.mem_cons_self _ _)) _ ?_
      intro z hz
      obtain ⟨y, hy, rfl⟩ := List.mem_map.mp hz
      exact hbound y hy
    show f x = max (f x) ((rest.map f).foldr max 0)
    exact (max_eq_left hle).symm

theorem column_hits_scores (q : String) : ∀ (cols : List ColumnRec),
    (cols.filterMap (fun col =>
      if (0.4 : ℚ) ≤ fuzzy_score q (col.name ++ " " ++ col.description) then
        some (fuzzy_score q (col.name ++ " " ++ col.description), col.name, col.description)
      else none)).map (fun h => h.1) =
    (cols.map (fun col => fuzzy_score q (col.name ++ " " ++ col.description))).filter
      (fun s => decide ((0.4 : ℚ) ≤ s)) := by
  intro cols
  induction cols with
  | nil => rfl
  | cons col rest ih =>
    rw [List.filterMap_cons, List.map_cons, List.filter_cons]
    by_cases h : (0.4 : ℚ) ≤ fuzzy_score q (col.name ++ " " ++ col.description)
    · rw [if_pos h, List.map_cons, ih]
      rw [if_pos (by rw [decide_eq_true_eq]; exact h)]
    · rw [if_neg h, ih]
      rw [if_neg (by rw [decide_eq_true_eq]; exact h)]

theorem mem_column_hits_ge (q : String) (cols : List ColumnRec)
    (h : ℚ × String × String)
    (hm : h ∈ cols.filterMap (fun col =>
      if (0.4 : ℚ) ≤ fuzzy_score q (col.name ++ " " ++ col.description) then
        some (fuzzy_score q (col.name ++ " " ++ col.description), col.name, col.description)
      else none)) :
    (0.4 : ℚ) ≤ h.1 := by
  rw [List.mem_filterMap] at hm
  obtain ⟨col, -, hcol⟩ := hm
  by_cases hc : (0.4 : ℚ) ≤ fuzzy_score q (col.name ++ " " ++ col.description)
  · rw [if_pos hc] at hcol
    obtain rfl := Option.some.inj hcol
    exact hc
  · rw [if_neg hc] at hcol
    cases hcol

theorem tableResult_score_eq (q : String) (det : List (String × TableDetail))
    (p : String × TableInfo) :
    (tableResult q det p).score = overallScore q det p := by
  have key : ∀ (cols : List ColumnRec),
      ((sortDescBy (fun h : ℚ × String × String => h.1) (cols.filterMap (fun col =>
          if (0.4 : ℚ) ≤ fuzzy_score q (col.name ++ " " ++ col.description) then
            some (fuzzy_score q (col.name ++ " " ++ col.description), col.name,
              col.description)
          else none))).head?.map (fun h => h.1)).getD 0 =
        bestColumnScore q cols := by
    intro cols
    rw [sortDescBy]
    have hperm := List.perm_insertionSort
      (descRel (fun h : ℚ × String × String => h.1))
      (cols.filterMap (fun col =>
        if (0.4 : ℚ) ≤ fuzzy_score q (col.name ++ " " ++ col.description) then
          some (fuzzy_score q (col.name ++ " " ++ col.description), col.name,
            col.description)
        else none))
    have hsorted := List.sorted_insertionSort
      (descRel (fun h : ℚ × String × String => h.1))
      (cols.filterMap (fun col =>
        if (0.4 : ℚ) ≤ fuzzy_score q (col.name ++ " " ++ col.description) then
          some (fuzzy_score q (col.name ++ " " ++ col.description), col.name,
            col.description)
        else none))
    have hnn : ∀ x ∈ (cols.filterMap (fun col =>
          if (0.4 : ℚ) ≤ fuzzy_score q (col.name ++ " " ++ col.description) then
            some (fuzzy_score q (col.name ++ " " ++ col.description), col.name,
              col.description)
          else none)).insertionSort
            (descRel (fun h : ℚ × String × String => h.1)),
        (0 : ℚ) ≤ x.1 := by
      intro x hx
      have hx' := hperm.mem_iff.mp hx
      exact le_trans (by norm_num) (mem_column_hits_ge q cols x hx')
    rw [head_sorted_desc _ _ hsorted hnn]
    rw [foldr_max_perm (hperm.map (fun h => h.1))]
    rw [column_hits_scores, bestColumnScore]
  simp only [tableResult, overallScore]
  congr 1
  exact key _

theorem mem_searchResults_iff (q : String) (idx : List (String × TableInfo))
    (det : List (String × TableDetail)) (r : SearchResult) :
    r ∈ searchResults q idx det ↔
      ∃ p ∈ idx, (0.35 : ℚ) ≤ overallScore q det p ∧ r = tableResult q det p := by
  rw [searchResults, sortDescBy]
  rw [(List.perm_insertionSort _ _).mem_iff]
  rw [List.mem_filterMap]
  constructor
  · rintro ⟨p, hp, hsome⟩
    dsimp only at hsome
    by_cases hs : (0.35 : ℚ) ≤ (tableResult q det p).score
    · rw [if_pos hs] at hsome
      refine ⟨p, hp, ?_, (Option.some.inj hsome).symm⟩
      rw [← tableResult_score_eq]
      exact hs
    · rw [if_neg hs] at hsome
      cases hsome
  · rintro ⟨p, hp, hs, rfl⟩
    refine ⟨p, hp, ?_⟩
    have hcond : (0.35 : ℚ) ≤ (tableResult q det p).score := by
      rw [tableResult_score_eq]
      exact hs
    show (if (0.35 : ℚ) ≤ (tableResult q det p).score then some (tableResult q det p)
      else none) = some (tableResult q det p)
    rw [if_pos hcond]

theorem tableResult_hits_facts (q : String) (det : List (String × TableDetail))
    (p : String × TableInfo) :
    (tableResult q det p).hits.length ≤ 3 ∧
      (∀ h ∈ (tableResult q det p).hits, (0.4 : ℚ) ≤ h.1) ∧
      (tableResult q det p).hits.Sorted (descRel (fun h => h.1)) := by
  have hhits : (tableResult q det p).hits =
      (sortDescBy (fun h : ℚ × String × String => h.1)
        ((((dget det p.1).map (fun d => d.columns)).getD []).filterMap (fun col =>
          if (0.4 : ℚ) ≤ fuzzy_score q (col.name ++ " " ++ col.description) then
            some (fuzzy_score q (col.name ++ " " ++ col.description), col.name,
              col.description)
          else none))).take 3 := by
    simp only [tableResult]
  rw [hhits]
  refine ⟨List.length_take_le _ _, ?_, ?_⟩
  · intro h hm
    have hm1 := (List.take_sublist 3 _).subset hm
    rw [sortDescBy] at hm1
    have hm2 := (List.perm_insertionSort _ _).mem_iff.mp hm1
    exact mem_column_hits_ge q _ h hm2
  · exact List.Pairwise.sublist (List.take_sublist 3 _)
      (List.sorted_insertionSort _ _)

/-- C6: the retained search results are exactly the index entries whose overall
score (maximum of base score and best qualifying column score) is at least
0.35, sorted in non-increasing score order; the displayed list is the prefix of
at most 15 of them; each result's attached column hits are at most 3, each
scoring at least 0.4 against "name description", in non-increasing order. -/
theorem C6_search_filtering_and_ranking (q : String)
    (idx : List (String × TableInfo)) (det : List (String × TableDetail)) :
    (∀ r : SearchResult, r ∈ searchResults q idx det ↔
        ∃ p ∈ idx, (0.35 : ℚ) ≤ overallScore q det p ∧ r = tableResult q det p) ∧
    (searchResults q idx det).Sorted (descRel (fun r => r.score)) ∧
    searchTop q idx det = (searchResults q idx det).take 15 ∧
    (searchTop q idx det).length ≤ 15 ∧
    (∀ p : String × TableInfo, (tableResult q det p).score = overallScore q det p) ∧
    (∀ r ∈ searchResults q idx det, r.hits.length ≤ 3 ∧
        (∀ h ∈ r.hits, (0.4 : ℚ) ≤ h.1) ∧
        r.hits.Sorted (descRel (fun h => h.1))) := by
  refine ⟨fun r => mem_searchResults_iff q idx det r, ?_, rfl, ?_, ?_, ?_⟩
  · rw [searchResults, sortDescBy]
    exact List.sorted_insertionSort _ _
  · exact List.length_take_le _ _
  · exact fun p => tableResult_score_eq q det p
  · intro r hr
    obtain ⟨p, -, -, rfl⟩ := (mem_searchResults_iff q idx det r).mp hr
    exact tableResult_hits_facts q det p

def infoC6w : TableInfo := ⟨"Alpha", "", [], [], ""⟩

/-- Witness for C6: at a concrete one-table index the scored result is
retained, and the displayed list obeys the cap. -/
theorem C6_witness :
    tableResult "alpha" [] ("alpha", infoC6w) ∈
      searchResults "alpha" [("alpha", infoC6w)] [] ∧
    (searchTop "alpha" [("alpha", infoC6w)] []).length ≤ 15 := by
  have H := C6_search_filtering_and_ranking "alpha" [("alpha", infoC6w)] []
  have h1 : fuzzy_score "alpha" "alpha" = 1 := fuzzyL_self (by decide)
  have hs : (0.35 : ℚ) ≤ overallScore "alpha" [] ("alpha", infoC6w) :=
    calc (0.35 : ℚ) ≤ 1 := by norm_num
      _ = fuzzy_score "alpha" "alpha" := h1.symm
      _ ≤ base_score "alpha" "alpha" infoC6w := le_max_left _ _
      _ ≤ overallScore "alpha" [] ("alpha", infoC6w) := le_max_left _ _
  exact ⟨(H.1 _).mpr ⟨("alpha", infoC6w), List.mem_cons_self _ _, hs, rfl⟩,
    H.2.2.2.1⟩

end DataBrowser
